import Mathlib

/-!
Verification of `testentity/entity.go`.

A shallow embedding of the test-fixture generator and comparator of the
`testentity` package, followed by the properties its specification states.

Conventions of the embedding:

* a Go `[]byte` is a `List Nat` (`Bytes`); bytes produced here are reduced `% 256`;
* `uint64` / `uint32` values are `Nat`, reduced `% 2 ^ 64` / `% 2 ^ 32` where the
  source computes them; a Go `int` is an `Int`;
* a Go pointer is an `Option` (`none` is `nil`); a slice of pointers is a list of
  options;
* the process-wide `math/rand` source is an explicit state `Rand` threaded through
  every generator; nothing is assumed about the values it yields;
* a run-time panic of the Go program is the `Except.error` result of the model;
  the length check of `make` is such a panic, with the limit of linux/amd64, the
  platform on which `int` is 64 bits wide. Exhaustion of memory by an accepted
  allocation is outside the model;
* code of other libraries is a parameter where its result matters and is not
  determined by the source: the bloom filter's `Add` (`add`) and the protobuf encoder
  (`enc`, `encHeader`, `encBlock`);
* a failed `require` assertion stops the test at once, which is the `Except.error`
  result of the comparator.
-/

namespace Testentity

/-! ## Data model (the fields of the protobuf messages that the source touches) -/

/-- A Go byte slice. -/
abbrev Bytes := List Nat

/-- The message `proto.EthLog`. -/
structure EthLog where
  Address : Bytes
  Topics : List Bytes
  Data : Bytes
  Removed : Bool
deriving DecidableEq, Repr

/-- The message `proto.EthTransaction`. -/
structure EthTransaction where
  Nonce : Nat
  From : Bytes
  To : Bytes
  Value : Bytes
  Gas : Nat
  GasPrice : Bytes
  Input : Bytes
  ContractAddress : Bytes
  CumulativeGasUsed : Nat
  GasUsed : Nat
  Status : Nat
  Logs : List (Option EthLog)
deriving DecidableEq, Repr

/-- The one-of field `Transaction.Specific`: the wrapper `*proto.Transaction_EthTx`
with its `EthTx` pointer, or a wrapper of another chain. -/
inductive TransactionSpecific where
  | EthTx (tx : Option EthTransaction)
  | Other
deriving DecidableEq, Repr

/-- The message `proto.Transaction`; `Specific = none` is the nil interface value. -/
structure Transaction where
  BlockchainName : String
  TransactionHash : Bytes
  BlockHash : Bytes
  BlockHeight : Nat
  TransactionIndex : Nat
  Timestamp : Nat
  Specific : Option TransactionSpecific
deriving DecidableEq, Repr

/-- The message `proto.EthBlock`. -/
structure EthBlock where
  Nonce : Bytes
  Sha3Uncles : Bytes
  TransactionsRoot : Bytes
  StateRoot : Bytes
  Miner : Bytes
  Difficulty : Bytes
  TotalDifficulty : Bytes
  ExtraData : Bytes
  Size : Nat
  GasLimit : Nat
  GasUsed : Nat
  Uncles : List Bytes
  LogsBloom : Bytes
deriving DecidableEq, Repr

/-- The one-of field `BlockHeader.Specific`. -/
inductive BlockHeaderSpecific where
  | EthBlock (b : Option EthBlock)
  | Other
deriving DecidableEq, Repr

/-- The message `proto.BlockHeader`. -/
structure BlockHeader where
  BlockchainName : String
  BlockHeight : Nat
  BlockHash : Bytes
  ParentHash : Bytes
  Timestamp : Nat
  TransactionsCount : Nat
  Specific : Option BlockHeaderSpecific
deriving DecidableEq, Repr

/-- The message `proto.Block`. -/
structure Block where
  Header : Option BlockHeader
  Transactions : List (Option Transaction)
deriving DecidableEq, Repr

/-! ## Run-time failures, the random source and the generator monad -/

/-- The run-time panics the source can raise. -/
inductive Panic where
  | makesliceLenOutOfRange
  | indexOutOfRange
  | nilDereference
  | interfaceConversion
deriving DecidableEq, Repr

/-- The state of the process-wide `math/rand` source: the stream of raw values it
will yield and how many have been consumed. -/
structure Rand where
  src : Nat → Nat
  pos : Nat

/-- A computation that consumes the random source and either panics or returns. -/
def Gen (α : Type) : Type := Rand → Except Panic (α × Rand)

/-- Return without touching the random source. -/
def Gen.pure {α : Type} (a : α) : Gen α := fun r => .ok (a, r)

/-- Sequencing: a panic of the first computation aborts the whole. -/
def Gen.bind {α β : Type} (m : Gen α) (f : α → Gen β) : Gen β := fun r =>
  match m r with
  | .error e => .error e
  | .ok (a, r') => f a r'

instance : Monad Gen where
  pure := Gen.pure
  bind := Gen.bind

/-- Raise a run-time panic. -/
def Gen.panic {α : Type} (p : Panic) : Gen α := fun _ => .error p

/-- One raw draw from the source. -/
def Rand.next : Gen Nat := fun r => .ok (r.src r.pos, { r with pos := r.pos + 1 })

/-- The call `rand.Uint64()`. -/
def randUint64 : Gen Nat := do
  let v ← Rand.next
  return v % 2 ^ 64

/-- The call `rand.Uint32()`. -/
def randUint32 : Gen Nat := do
  let v ← Rand.next
  return v % 2 ^ 32

/-- The largest length the runtime accepts for a byte slice, its `maxAlloc`: `2 ^ 48`
on linux/amd64. The length is checked against it before anything is allocated. -/
def maxAlloc : Int := 2 ^ 48

/-- The expression `make([]byte, size)`: a zeroed slice, or the panic
`makeslice: len out of range` on a length that is negative or above `maxAlloc`. -/
def makeBytes (size : Int) : Gen Bytes :=
  if size < 0 ∨ maxAlloc < size then Gen.panic .makesliceLenOutOfRange
  else return List.replicate size.toNat 0

/-- The call `rand.Read(token)`: every byte of the slice is overwritten by a random
byte. -/
def randRead : Bytes → Gen Bytes
  | [] => return []
  | _ :: rest => do
    let v ← Rand.next
    let tail ← randRead rest
    return (v % 256) :: tail

/-! ## The generators -/

/-- The function `GenAddress`. -/
def GenAddress : Gen Bytes := do
  let token ← makeBytes 20
  randRead token

/-- The function `GenHash`. -/
def GenHash : Gen Bytes := do
  let token ← makeBytes 32
  randRead token

/-- The function `GenBlockHeight`. -/
def GenBlockHeight : Gen Nat := do
  let v ← randUint32
  return v % 2 ^ 64

/-- The function `GenBytes`. -/
def GenBytes (size : Int) : Gen Bytes := do
  let token ← makeBytes size
  randRead token

/-- The function `GenLog`; the `logIndex` argument is not used by the source. -/
def GenLog (_logIndex : Nat) (dataSize : Int) : Gen (Option EthLog) := do
  let address ← GenAddress
  let topic0 ← GenHash
  let topic1 ← GenHash
  let data ← GenBytes dataSize
  return some { Address := address, Topics := [topic0, topic1], Data := data, Removed := false }

/-- Dereference of a pointer: a nil pointer panics. -/
def deref {α : Type} : Option α → Except Panic α
  | none => .error .nilDereference
  | some a => .ok a

/-- The index expression `xs[i]` for an `int` index: out of range panics. -/
def index {α : Type} (xs : List α) (i : Int) : Except Panic α :=
  if i < 0 then .error .indexOutOfRange
  else match xs[i.toNat]? with
    | none => .error .indexOutOfRange
    | some x => .ok x

/-- Run a computation that does not touch the random source inside `Gen`. -/
def Gen.lift {α : Type} (x : Except Panic α) : Gen α := fun r =>
  match x with
  | .error e => .error e
  | .ok a => .ok (a, r)

/-- The iterations `i, i + 1, ...` of a counting loop, `remaining` of them, each
transforming the loop's variables. -/
def forLoopFrom {σ : Type} (body : Nat → σ → Gen σ) :
    (remaining : Nat) → Nat → σ → Gen σ
  | 0, _, s => return s
  | k + 1, i, s => do
    let s' ← body i s
    forLoopFrom body k (i + 1) s'

/-- The loop `for i := 0; i < n; i++ { body }` over an `int` bound `n`: it runs
`max n 0` iterations. -/
def forLoop {σ : Type} (n : Int) (body : Nat → σ → Gen σ) (init : σ) : Gen σ :=
  forLoopFrom body n.toNat 0 init

/-- The function `GetSequenceParent`: `blocks[len(blocks)-1].Header.BlockHash`. -/
def GetSequenceParent (blocks : List (Option Block)) : Except Panic Bytes := do
  let last ← index blocks ((blocks.length : Int) - 1)
  let block ← deref last
  let header ← deref block.Header
  return header.BlockHash

/-- The array type `types.Bloom`, `[256]byte`. -/
structure Bloom where
  bytes : Bytes
  size : bytes.length = 256

/-- The zero value of `types.Bloom` (`var bin types.Bloom`). -/
def Bloom.zero : Bloom := ⟨List.replicate 256 0, List.length_replicate 256 0⟩

/-- The loop `for _, topic := range log.Topics { bin.Add(topic) }`. The method
`types.Bloom.Add` of go-ethereum is the parameter `add`. -/
def addTopics (add : Bloom → Bytes → Bloom) (bin : Bloom) : List Bytes → Bloom
  | [] => bin
  | topic :: rest => addTopics add (add bin topic) rest

/-- The loop over the logs of one transaction in `GenLogsBloom`. -/
def addLogs (add : Bloom → Bytes → Bloom) (bin : Bloom) :
    List (Option EthLog) → Except Panic Bloom
  | [] => return bin
  | l :: rest => do
    let log ← deref l
    let bin := add bin log.Address
    let bin := addTopics add bin log.Topics
    addLogs add bin rest

/-- The expression `tx.Specific.(*proto.Transaction_EthTx).EthTx.Logs`: a nil
transaction and a nil `EthTx` panic on the dereference, a `Specific` that is nil or of
another chain panics on the type assertion. -/
def ethLogs (t : Option Transaction) : Except Panic (List (Option EthLog)) := do
  let tx ← deref t
  match tx.Specific with
  | some (.EthTx e) => do
    let ethTx ← deref e
    return ethTx.Logs
  | _ => .error .interfaceConversion

/-- The loop over the transactions in `GenLogsBloom`. -/
def addTransactions (add : Bloom → Bytes → Bloom) (bin : Bloom) :
    List (Option Transaction) → Except Panic Bloom
  | [] => return bin
  | t :: rest => do
    let logs ← ethLogs t
    let bin ← addLogs add bin logs
    addTransactions add bin rest

/-- The function `GenLogsBloom`. -/
def GenLogsBloom (add : Bloom → Bytes → Bloom) (transactions : List (Option Transaction)) :
    Except Panic Bytes := do
  let bin ← addTransactions add Bloom.zero transactions
  return bin.bytes

/-- The function `GenTxWithLogs`. -/
def GenTxWithLogs (blockchainName : String) (blockHeight : Nat) (blockHash : Bytes)
    (transactionHash : Bytes) (transactionIndex : Nat) (inputSize : Int)
    (logs : List (Option EthLog)) : Gen (Option Transaction) := do
  let timestamp ← randUint64
  let nonce ← randUint64
  let sender ← GenAddress
  let receiver ← GenAddress
  let value ← GenHash
  let gas ← randUint64
  let gasPrice ← GenHash
  let input ← GenBytes inputSize
  let contractAddress ← GenAddress
  let cumulativeGasUsed ← randUint64
  let gasUsed ← randUint64
  return some {
    BlockchainName := blockchainName
    TransactionHash := transactionHash
    BlockHash := blockHash
    BlockHeight := blockHeight
    TransactionIndex := transactionIndex
    Timestamp := timestamp
    Specific := some (.EthTx (some {
      Nonce := nonce
      From := sender
      To := receiver
      Value := value
      Gas := gas
      GasPrice := gasPrice
      Input := input
      ContractAddress := contractAddress
      CumulativeGasUsed := cumulativeGasUsed
      GasUsed := gasUsed
      Status := 1
      Logs := logs })) }

/-- The function `GenTx`. -/
def GenTx (blockchainName : String) (blockHeight : Nat) (blockHash : Bytes)
    (transactionHash : Bytes) (transactionIndex : Nat) (inputSize logsCount logsDataSize : Int) :
    Gen (Option Transaction) := do
  let logs ← forLoop logsCount (fun i logs => do
    let log ← GenLog (i % 2 ^ 32) logsDataSize
    return logs ++ [log]) []
  GenTxWithLogs blockchainName blockHeight blockHash transactionHash transactionIndex
    inputSize logs

/-- The function `GenBlock`. -/
def GenBlock (add : Bloom → Bytes → Bloom) (blockchainName : String) (blockHeight : Nat)
    (blockHash parentHash : Bytes) (transactions : List (Option Transaction)) :
    Gen (Option Block) := do
  let timestamp ← randUint64
  let nonce ← GenAddress
  let sha3Uncles ← GenHash
  let transactionsRoot ← GenHash
  let stateRoot ← GenHash
  let miner ← GenAddress
  let difficulty ← GenHash
  let totalDifficulty ← GenHash
  let extraData ← GenHash
  let size ← randUint64
  let gasLimit ← randUint64
  let gasUsed ← randUint64
  let uncle0 ← GenHash
  let uncle1 ← GenHash
  let logsBloom ← Gen.lift (GenLogsBloom add transactions)
  return some {
    Header := some {
      BlockchainName := blockchainName
      BlockHeight := blockHeight
      BlockHash := blockHash
      ParentHash := parentHash
      Timestamp := timestamp
      TransactionsCount := transactions.length % 2 ^ 64
      Specific := some (.EthBlock (some {
        Nonce := nonce
        Sha3Uncles := sha3Uncles
        TransactionsRoot := transactionsRoot
        StateRoot := stateRoot
        Miner := miner
        Difficulty := difficulty
        TotalDifficulty := totalDifficulty
        ExtraData := extraData
        Size := size
        GasLimit := gasLimit
        GasUsed := gasUsed
        Uncles := [uncle0, uncle1]
        LogsBloom := logsBloom })) }
    Transactions := transactions }

/-- The function `GenBlockWithTxs`. -/
def GenBlockWithTxs (add : Bloom → Bytes → Bloom) (blockchainName : String)
    (blockHeight : Nat) (blockHash parentHash : Bytes) (txsCount : Int) :
    Gen (Option Block) := do
  let transactions ← forLoop txsCount (fun i transactions => do
    let transactionHash ← GenHash
    let tx ← GenTx blockchainName blockHeight blockHash transactionHash (i % 2 ^ 64) 500 10 40
    return transactions ++ [tx]) []
  GenBlock add blockchainName blockHeight blockHash parentHash transactions

/-- The function `GenBlockWithLargeTxs`. -/
def GenBlockWithLargeTxs (add : Bloom → Bytes → Bloom) (blockchainName : String)
    (blockHeight : Nat) (blockHash : Bytes) (txsCount : Int) (inputSize : Int) :
    Gen (Option Block) := do
  let transactions ← forLoop txsCount (fun i transactions => do
    let transactionHash ← GenHash
    let tx ← GenTx blockchainName blockHeight blockHash transactionHash (i % 2 ^ 64)
      inputSize 10 40
    return transactions ++ [tx]) []
  let parentHash ← GenHash
  GenBlock add blockchainName blockHeight blockHash parentHash transactions

/-- The variables the loop of `GenSequence` updates. -/
structure SeqState where
  blocks : List (Option Block)
  blockHash : Bytes
  parentHash : Bytes

/-- One iteration of the loop of `GenSequence`. -/
def GenSequenceStep (add : Bloom → Bytes → Bloom) (blockchainName : String)
    (blockHeight : Nat) (txsCount : Int) (i : Nat) (s : SeqState) : Gen SeqState := do
  let block ← GenBlockWithTxs add blockchainName ((blockHeight + i % 2 ^ 64) % 2 ^ 64)
    s.blockHash s.parentHash txsCount
  let parentHash := s.blockHash
  let blockHash ← GenHash
  return { blocks := s.blocks ++ [block], blockHash := blockHash, parentHash := parentHash }

/-- The function `GenSequence`. -/
def GenSequence (add : Bloom → Bytes → Bloom) (blocksCount : Int) (blockchainName : String)
    (blockHeight : Nat) (blockHash parentHash : Bytes) (txsCount : Int) :
    Gen (List (Option Block)) := do
  let s ← forLoop blocksCount (GenSequenceStep add blockchainName blockHeight txsCount)
    { blocks := [], blockHash := blockHash, parentHash := parentHash }
  return s.blocks

/-! ## The comparator -/

/-- The function `bytes.Compare`: the lexicographic comparison of two byte slices,
`-1`, `0` or `1`. -/
def bytesCompare : Bytes → Bytes → Int
  | [], [] => 0
  | [], _ :: _ => -1
  | _ :: _, [] => 1
  | x :: xs, y :: ys => if x < y then -1 else if y < x then 1 else bytesCompare xs ys

/-- The assertion of `ProtoEqual` that stopped the test. -/
inductive ProtoFailure where
  | encodeFirst
  | encodeSecond
  | lengthsDiffer
  | bytesDiffer
deriving DecidableEq, Repr

/-- The function `ProtoEqual`. The encoder `EncodeMessage` of the protobuf library is the
parameter `enc`; `none` is an encoding error. Every `require` assertion stops the
test at once when it does not hold. -/
def ProtoEqual {M : Type} (enc : M → Option Bytes) (message1 message2 : M) :
    Except ProtoFailure Unit := do
  let buf1 ← match enc message1 with
    | none => .error .encodeFirst
    | some b => pure b
  let buf2 ← match enc message2 with
    | none => .error .encodeSecond
    | some b => pure b
  if buf1.length ≠ buf2.length then .error .lengthsDiffer
  else if 0 ≠ bytesCompare buf1 buf2 then .error .bytesDiffer
  else return ()

/-- The conversion `int(x)` of a `uint64` on a 64-bit platform. -/
def uint64ToInt (x : Nat) : Int :=
  if x % 2 ^ 64 < 2 ^ 63 then ((x % 2 ^ 64 : Nat) : Int) else ((x % 2 ^ 64 : Nat) : Int) - 2 ^ 64

/-- The function `common.BytesToHash` of go-ethereum: the last 32 bytes, left-padded
with zeros. -/
def BytesToHash (b : Bytes) : Bytes :=
  let b := if b.length > 32 then b.drop (b.length - 32) else b
  List.replicate (32 - b.length) 0 ++ b

/-- One lower-case hexadecimal digit. -/
def hexDigit (n : Nat) : Char :=
  if n < 10 then Char.ofNat (48 + n) else Char.ofNat (87 + n)

/-- The method `common.Hash.String` of go-ethereum: `0x` followed by two digits per
byte. -/
def hashString (h : Bytes) : List Char :=
  '0' :: 'x' :: h.flatMap (fun b => [hexDigit (b / 16 % 16), hexDigit (b % 16)])

/-- The five assertions `CheckBlocks` makes at one index, in source order. -/
inductive Check where
  | name
  | height
  | hash
  | header
  | block
deriving DecidableEq, Repr

/-- How a run of `CheckBlocks` stops the test. -/
inductive CheckAbort where
  | lengths
  | failed (i : Nat) (c : Check)
  | panicked (i : Nat) (p : Panic)
deriving DecidableEq, Repr

/-- A `require` assertion inside the loop of `CheckBlocks`. -/
def require (i : Nat) (c : Check) (holds : Bool) : Except CheckAbort Unit :=
  if holds then .ok () else .error (.failed i c)

/-- A call of `ProtoEqual` inside the loop of `CheckBlocks`: a failed assertion of
the callee stops the test. -/
def nested (i : Nat) (c : Check) : Except ProtoFailure Unit → Except CheckAbort Unit
  | .ok _ => .ok ()
  | .error _ => .error (.failed i c)

/-- An operation of the loop body that may panic. -/
def atIndex {α : Type} (i : Nat) : Except Panic α → Except CheckAbort α
  | .error p => .error (.panicked i p)
  | .ok a => .ok a

/-- The body of the loop of `CheckBlocks` at index `i`. -/
def CheckBlocksBody (encHeader : BlockHeader → Option Bytes) (encBlock : Block → Option Bytes)
    (initial result : List (Option Block)) (i : Nat) : Except CheckAbort Unit := do
  let a ← atIndex i (index initial i)
  let a ← atIndex i (deref a)
  let ha ← atIndex i (deref a.Header)
  let b ← atIndex i (index result i)
  let b ← atIndex i (deref b)
  let hb ← atIndex i (deref b.Header)
  require i .name (ha.BlockchainName == hb.BlockchainName)
  require i .height (uint64ToInt ha.BlockHeight == uint64ToInt hb.BlockHeight)
  require i .hash (hashString (BytesToHash ha.BlockHash) == hashString (BytesToHash hb.BlockHash))
  nested i .header (ProtoEqual encHeader ha hb)
  nested i .block (ProtoEqual encBlock a b)

/-- The loop of `CheckBlocks` from index `i`, `remaining` iterations. -/
def CheckBlocksLoop (encHeader : BlockHeader → Option Bytes) (encBlock : Block → Option Bytes)
    (initial result : List (Option Block)) : (remaining : Nat) → Nat → Except CheckAbort Unit
  | 0, _ => return ()
  | k + 1, i => do
    CheckBlocksBody encHeader encBlock initial result i
    CheckBlocksLoop encHeader encBlock initial result k (i + 1)

/-- The function `CheckBlocks`. -/
def CheckBlocks (encHeader : BlockHeader → Option Bytes) (encBlock : Block → Option Bytes)
    (initial result : List (Option Block)) : Except CheckAbort Unit :=
  if initial.length ≠ result.length then .error .lengths
  else CheckBlocksLoop encHeader encBlock initial result initial.length 0

/-! ## Specification vocabulary -/

/-- Total correctness: from every state of the random source the computation
returns, and the returned value satisfies `P`. -/
def Gen.Returns {α : Type} (m : Gen α) (P : α → Prop) : Prop :=
  ∀ r, ∃ a r', m r = .ok (a, r') ∧ P a

/-- Conditional correctness: whenever the computation returns, the returned value
satisfies `P`. -/
def Gen.Yields {α : Type} (m : Gen α) (P : α → Prop) : Prop :=
  ∀ r a r', m r = .ok (a, r') → P a

/-- From every state of the random source the computation panics with `p`. -/
def Gen.Panics {α : Type} (m : Gen α) (p : Panic) : Prop :=
  ∀ r, m r = .error p

/-- What `GenLog` promises about the log it returns. -/
def LogShape (dataSize : Int) (l : Option EthLog) : Prop :=
  ∃ log, l = some log ∧ log.Data.length = dataSize.toNat ∧ log.Topics.length = 2 ∧
    (∀ t ∈ log.Topics, t.length = 32) ∧ log.Address.length = 20 ∧ log.Removed = false

/-- A non-nil transaction carrying a non-nil Ethereum payload whose logs are all
non-nil. -/
def isEthereumTx : Option Transaction → Bool
  | some tx =>
    match tx.Specific with
    | some (.EthTx (some e)) => e.Logs.all Option.isSome
    | _ => false
  | none => false

/-- The byte strings one log contributes to the bloom filter: its address, then
each of its topics. -/
def logInputs : Option EthLog → List Bytes
  | some log => log.Address :: log.Topics
  | none => []

/-- The byte strings one transaction contributes: those of its logs, in order. -/
def txInputs : Option Transaction → List Bytes
  | some tx =>
    match tx.Specific with
    | some (.EthTx (some e)) => e.Logs.flatMap logInputs
    | _ => []
  | none => []

/-- The byte strings of all logs of all transactions, in order. -/
def bloomInputs (transactions : List (Option Transaction)) : List Bytes :=
  transactions.flatMap txInputs

/-- The filter obtained from the all-zero filter by adding the inputs one by one. -/
def bloomOf (add : Bloom → Bytes → Bloom) (inputs : List Bytes) : Bloom :=
  inputs.foldl add Bloom.zero

/-- The logs of a transaction, when it is an Ethereum transaction. -/
def logsOf : Option Transaction → List (Option EthLog)
  | some tx =>
    match tx.Specific with
    | some (.EthTx (some e)) => e.Logs
    | _ => []
  | none => []

/-- What `GenTx` promises about the transaction it returns. -/
def TxShape (name : String) (height : Nat) (hash : Bytes) (idx inputLen logsCount dataLen : Nat)
    (t : Option Transaction) : Prop :=
  ∃ tx e, t = some tx ∧ tx.BlockchainName = name ∧ tx.BlockHash = hash ∧
    tx.BlockHeight = height ∧ tx.TransactionIndex = idx ∧
    tx.Specific = some (.EthTx (some e)) ∧ e.Status = 1 ∧ e.Input.length = inputLen ∧
    e.Logs.length = logsCount ∧ ∀ l ∈ e.Logs, ∃ log, l = some log ∧ log.Data.length = dataLen

/-- What `GenBlock` promises about the block it returns. -/
def BlockShape (add : Bloom → Bytes → Bloom) (name : String) (height : Nat)
    (hash parent : Bytes) (transactions : List (Option Transaction)) (b : Option Block) : Prop :=
  ∃ blk hd eb, b = some blk ∧ blk.Header = some hd ∧ blk.Transactions = transactions ∧
    hd.BlockchainName = name ∧ hd.BlockHeight = height ∧ hd.BlockHash = hash ∧
    hd.ParentHash = parent ∧ hd.TransactionsCount = transactions.length % 2 ^ 64 ∧
    hd.Specific = some (.EthBlock (some eb)) ∧
    GenLogsBloom add transactions = .ok eb.LogsBloom

/-- A sample random source for concrete runs. -/
def sampleRand : Rand := { src := fun i => 7 * i + 3, pos := 0 }

/-- A sample bloom `Add` for concrete runs: it marks the byte at the length of the input. -/
def sampleAdd (b : Bloom) (d : Bytes) : Bloom :=
  ⟨b.bytes.set (d.length % 256) 1, by rw [List.length_set]; exact b.size⟩

/-- A sample log. -/
def sampleLog : EthLog :=
  { Address := [1, 2], Topics := [[3], [4, 5, 6]], Data := [7], Removed := false }

/-- A sample Ethereum transaction with one log. -/
def sampleTx : Transaction :=
  { BlockchainName := "ABCchain", TransactionHash := [9], BlockHash := [8], BlockHeight := 100,
    TransactionIndex := 0, Timestamp := 0,
    Specific := some (.EthTx (some
      { Nonce := 0, From := [], To := [], Value := [], Gas := 0, GasPrice := [], Input := [],
        ContractAddress := [], CumulativeGasUsed := 0, GasUsed := 0, Status := 1,
        Logs := [some sampleLog] })) }

/-- What `GenSequence` promises about the list it returns, `count` blocks long: block
`j` has height `height + j` (in `uint64` arithmetic), hash `g (j + 1)` and parent hash
`g j`, where `g 0` and `g 1` are the supplied parent hash and hash. -/
def SeqShape (add : Bloom → Bytes → Bloom) (name : String) (height : Nat)
    (hash parent : Bytes) (txsCount : Int) (count : Nat) (g : Nat → Bytes)
    (blocks : List (Option Block)) : Prop :=
  g 0 = parent ∧ g 1 = hash ∧ blocks.length = count ∧
    ∀ j, j < count → ∃ b txs, blocks[j]? = some b ∧
      BlockShape add name ((height + j) % 2 ^ 64) (g (j + 1)) (g j) txs b ∧
      txs.length = txsCount.toNat

/-- The position of a check in the order `CheckBlocks` makes them. -/
def Check.rank : Check → Nat
  | .name => 0
  | .height => 1
  | .hash => 2
  | .header => 3
  | .block => 4

/-- The condition each of the five checks of `CheckBlocks` states about a pair of
blocks and their headers: equal blockchain names, equal heights after conversion to
`int`, equal hex strings of the hashes normalised by `BytesToHash`, headers with the
same encoding, blocks with the same encoding. -/
def checkHolds (encHeader : BlockHeader → Option Bytes) (encBlock : Block → Option Bytes)
    (a : Block) (ha : BlockHeader) (b : Block) (hb : BlockHeader) : Check → Prop
  | .name => ha.BlockchainName = hb.BlockchainName
  | .height => uint64ToInt ha.BlockHeight = uint64ToInt hb.BlockHeight
  | .hash => hashString (BytesToHash ha.BlockHash) = hashString (BytesToHash hb.BlockHash)
  | .header => ∃ x, encHeader ha = some x ∧ encHeader hb = some x
  | .block => ∃ x, encBlock a = some x ∧ encBlock b = some x

/-- Both lists hold a block with a header at index `i`, and the five checks hold
for them. -/
def ChecksHoldAt (encHeader : BlockHeader → Option Bytes) (encBlock : Block → Option Bytes)
    (initial result : List (Option Block)) (i : Nat) : Prop :=
  ∃ a ha b hb, initial[i]? = some (some a) ∧ a.Header = some ha ∧
    result[i]? = some (some b) ∧ b.Header = some hb ∧
    ∀ c, checkHolds encHeader encBlock a ha b hb c

/-- A sample encoder of headers for concrete runs: the block hash. -/
def sampleEncHeader (h : BlockHeader) : Option Bytes := some h.BlockHash

/-- A sample encoder of blocks for concrete runs: the number of transactions. -/
def sampleEncBlock (b : Block) : Option Bytes := some [b.Transactions.length]

/-- A sample block at the given height. -/
def sampleBlock (height : Nat) : Block :=
  { Header := some
      { BlockchainName := "ABCchain", BlockHeight := height, BlockHash := [8],
        ParentHash := [7], Timestamp := 0, TransactionsCount := 0, Specific := none }
    Transactions := [] }

/-- A sample transaction of another chain: its `Specific` is not the Ethereum wrapper. -/
def sampleOtherTx : Transaction := { sampleTx with Specific := some .Other }

/-! ## Reasoning principles for `Gen` -/

theorem Gen.Returns.of_pure {α : Type} {a : α} {P : α → Prop} (h : P a) :
    Gen.Returns (Pure.pure a : Gen α) P :=
  fun r => ⟨a, r, rfl, h⟩

theorem Gen.Returns.bind {α β : Type} {m : Gen α} {f : α → Gen β} {P : α → Prop}
    {Q : β → Prop} (hm : Gen.Returns m P) (hf : ∀ a, P a → Gen.Returns (f a) Q) :
    Gen.Returns (m >>= f) Q := by
  intro r
  obtain ⟨a, r', hr, hP⟩ := hm r
  obtain ⟨b, r'', hb, hQ⟩ := hf a hP r'
  refine ⟨b, r'', ?_, hQ⟩
  show Gen.bind m f r = _
  simp only [Gen.bind, hr, hb]

theorem Gen.Returns.mono {α : Type} {m : Gen α} {P Q : α → Prop}
    (hm : Gen.Returns m P) (h : ∀ a, P a → Q a) : Gen.Returns m Q := by
  intro r
  obtain ⟨a, r', hr, hP⟩ := hm r
  exact ⟨a, r', hr, h a hP⟩

theorem Rand.next_returns : Gen.Returns Rand.next (fun _ => True) :=
  fun _ => ⟨_, _, rfl, trivial⟩

theorem makeBytes_returns (size : Int) (h : 0 ≤ size) (hmax : size ≤ maxAlloc) :
    Gen.Returns (makeBytes size) (fun b => b.length = size.toNat) := by
  intro r
  refine ⟨List.replicate size.toNat 0, r, ?_, by simp⟩
  unfold makeBytes
  rw [if_neg (by omega)]
  rfl

theorem randRead_returns (token : Bytes) :
    Gen.Returns (randRead token) (fun b => b.length = token.length) := by
  induction token with
  | nil => exact Gen.Returns.of_pure rfl
  | cons x rest ih =>
    unfold randRead
    refine Gen.Returns.bind Rand.next_returns ?_
    intro v _
    refine Gen.Returns.bind ih ?_
    intro tail htail
    exact Gen.Returns.of_pure (by simp [htail])

theorem GenBytes_returns (size : Int) (h : 0 ≤ size) (hmax : size ≤ maxAlloc) :
    Gen.Returns (GenBytes size) (fun b => b.length = size.toNat) := by
  unfold GenBytes
  refine Gen.Returns.bind (makeBytes_returns size h hmax) ?_
  intro token htoken
  exact (randRead_returns token).mono (fun b hb => by rw [hb, htoken])

theorem GenAddress_returns : Gen.Returns GenAddress (fun b => b.length = 20) :=
  (GenBytes_returns 20 (by decide) (by decide)).mono (fun _ hb => by simpa using hb)

theorem GenHash_returns : Gen.Returns GenHash (fun b => b.length = 32) :=
  (GenBytes_returns 32 (by decide) (by decide)).mono (fun _ hb => by simpa using hb)

theorem GenLog_returns (logIndex : Nat) (dataSize : Int) (h : 0 ≤ dataSize)
    (hmax : dataSize ≤ maxAlloc) :
    Gen.Returns (GenLog logIndex dataSize) (LogShape dataSize) := by
  unfold GenLog
  refine Gen.Returns.bind GenAddress_returns ?_
  intro address haddr
  refine Gen.Returns.bind GenHash_returns ?_
  intro t0 ht0
  refine Gen.Returns.bind GenHash_returns ?_
  intro t1 ht1
  refine Gen.Returns.bind (GenBytes_returns dataSize h hmax) ?_
  intro data hdata
  refine Gen.Returns.of_pure ⟨_, rfl, hdata, rfl, ?_, haddr, rfl⟩
  intro t ht
  simp only [List.mem_cons, List.mem_singleton, List.not_mem_nil, or_false] at ht
  rcases ht with rfl | rfl <;> assumption

theorem Gen.Returns.of_lift {α : Type} {x : Except Panic α} {a : α} (h : x = .ok a) :
    Gen.Returns (Gen.lift x) (fun b => b = a) := by
  intro r
  exact ⟨a, r, by simp [Gen.lift, h], rfl⟩

theorem Gen.Yields.of_value {α : Type} {a : α} {P : α → Prop} (h : P a) :
    Gen.Yields (Pure.pure a : Gen α) P := by
  intro r b r' hb
  have hb' : (Except.ok (a, r) : Except Panic (α × Rand)) = .ok (b, r') := hb
  injection hb' with hb'
  injection hb' with h1 _
  exact h1 ▸ h

theorem Gen.Yields.seq {α β : Type} {m : Gen α} {f : α → Gen β} {P : α → Prop}
    {Q : β → Prop} (hm : Gen.Yields m P) (hf : ∀ a, P a → Gen.Yields (f a) Q) :
    Gen.Yields (m >>= f) Q := by
  intro r b r'' hb
  have hb' : Gen.bind m f r = .ok (b, r'') := hb
  unfold Gen.bind at hb'
  cases hm' : m r with
  | error e => rw [hm'] at hb'; cases hb'
  | ok p =>
    obtain ⟨a, r'⟩ := p
    rw [hm'] at hb'
    exact hf a (hm r a r' hm') r' b r'' hb'

theorem Gen.Yields.trivial {α : Type} (m : Gen α) : Gen.Yields m (fun _ => True) :=
  fun _ _ _ _ => True.intro

theorem Gen.Yields.of_liftYield {α : Type} (x : Except Panic α) :
    Gen.Yields (Gen.lift x) (fun b => x = .ok b) := by
  intro r b r' hb
  unfold Gen.lift at hb
  cases x with
  | error e => cases hb
  | ok a =>
    injection hb with hb
    injection hb with h1 _
    rw [h1]

theorem forLoopFrom_returns {σ : Type} (body : Nat → σ → Gen σ) (Inv : Nat → σ → Prop)
    (n : Nat) (hstep : ∀ i s, i < n → Inv i s → Gen.Returns (body i s) (Inv (i + 1))) :
    ∀ (k i : Nat) (s : σ), i + k = n → Inv i s →
      Gen.Returns (forLoopFrom body k i s) (Inv n) := by
  intro k
  induction k with
  | zero =>
    intro i s hi hs
    have : i = n := by omega
    subst this
    exact Gen.Returns.of_pure hs
  | succ k ih =>
    intro i s hi hs
    unfold forLoopFrom
    refine Gen.Returns.bind (hstep i s (by omega) hs) ?_
    intro s' hs'
    exact ih (i + 1) s' (by omega) hs'

theorem forLoop_returns {σ : Type} (n : Int) (body : Nat → σ → Gen σ) (init : σ)
    (Inv : Nat → σ → Prop) (h0 : Inv 0 init)
    (hstep : ∀ i s, i < n.toNat → Inv i s → Gen.Returns (body i s) (Inv (i + 1))) :
    Gen.Returns (forLoop n body init) (Inv n.toNat) :=
  forLoopFrom_returns body Inv n.toNat hstep n.toNat 0 init (by omega) h0

theorem forLoopFrom_yields {σ : Type} (body : Nat → σ → Gen σ) (Inv : Nat → σ → Prop)
    (n : Nat) (hstep : ∀ i s, i < n → Inv i s → Gen.Yields (body i s) (Inv (i + 1))) :
    ∀ (k i : Nat) (s : σ), i + k = n → Inv i s →
      Gen.Yields (forLoopFrom body k i s) (Inv n) := by
  intro k
  induction k with
  | zero =>
    intro i s hi hs
    have : i = n := by omega
    subst this
    exact Gen.Yields.of_value hs
  | succ k ih =>
    intro i s hi hs
    unfold forLoopFrom
    refine Gen.Yields.seq (hstep i s (by omega) hs) ?_
    intro s' hs'
    exact ih (i + 1) s' (by omega) hs'

theorem forLoop_yields {σ : Type} (n : Int) (body : Nat → σ → Gen σ) (init : σ)
    (Inv : Nat → σ → Prop) (h0 : Inv 0 init)
    (hstep : ∀ i s, i < n.toNat → Inv i s → Gen.Yields (body i s) (Inv (i + 1))) :
    Gen.Yields (forLoop n body init) (Inv n.toNat) :=
  forLoopFrom_yields body Inv n.toNat hstep n.toNat 0 init (by omega) h0

theorem randUint64_returns : Gen.Returns randUint64 (fun _ => True) :=
  Gen.Returns.bind Rand.next_returns (fun _ _ => Gen.Returns.of_pure trivial)

/-! ### The bloom filter of a list of transactions -/

theorem addTopics_eq_foldl (add : Bloom → Bytes → Bloom) (topics : List Bytes) :
    ∀ bin, addTopics add bin topics = topics.foldl add bin := by
  induction topics with
  | nil => intro bin; rfl
  | cons t rest ih => intro bin; simp [addTopics, ih]

theorem addLogs_eq_foldl (add : Bloom → Bytes → Bloom) (logs : List (Option EthLog))
    (h : logs.all Option.isSome = true) :
    ∀ bin, addLogs add bin logs = .ok ((logs.flatMap logInputs).foldl add bin) := by
  induction logs with
  | nil => intro bin; rfl
  | cons l rest ih =>
    intro bin
    simp only [List.all_cons, Bool.and_eq_true] at h
    cases l with
    | none => simp at h
    | some log =>
      unfold addLogs
      simp only [deref, addTopics_eq_foldl]
      show addLogs add _ rest = _
      rw [ih h.2]
      simp [logInputs]

theorem ethLogs_of_isEthereumTx (t : Option Transaction) (h : isEthereumTx t = true) :
    ethLogs t = .ok (logsOf t) ∧ (logsOf t).all Option.isSome = true ∧
      txInputs t = (logsOf t).flatMap logInputs := by
  cases t with
  | none => simp [isEthereumTx] at h
  | some tx =>
    obtain ⟨name, txHash, blockHash, height, idx, ts, spec⟩ := tx
    rcases spec with _ | (_ | e) | _
    · simp [isEthereumTx] at h
    · simp [isEthereumTx] at h
    · exact ⟨rfl, h, rfl⟩
    · simp [isEthereumTx] at h

theorem addTransactions_eq_foldl (add : Bloom → Bytes → Bloom)
    (transactions : List (Option Transaction))
    (h : ∀ t ∈ transactions, isEthereumTx t = true) :
    ∀ bin, addTransactions add bin transactions =
      .ok ((bloomInputs transactions).foldl add bin) := by
  induction transactions with
  | nil => intro bin; rfl
  | cons t rest ih =>
    intro bin
    obtain ⟨h1, h2, h3⟩ := ethLogs_of_isEthereumTx t (h t (List.mem_cons_self _ _))
    unfold addTransactions
    rw [h1]
    show (addLogs add bin (logsOf t) >>= fun bin => addTransactions add bin rest) = _
    rw [addLogs_eq_foldl add _ h2 bin]
    show addTransactions add _ rest = _
    rw [ih (fun t' ht' => h t' (List.mem_cons_of_mem _ ht'))]
    simp [bloomInputs, h3]

theorem GenLogsBloom_eq (add : Bloom → Bytes → Bloom)
    (transactions : List (Option Transaction))
    (h : ∀ t ∈ transactions, isEthereumTx t = true) :
    GenLogsBloom add transactions = .ok (bloomOf add (bloomInputs transactions)).bytes := by
  unfold GenLogsBloom
  rw [addTransactions_eq_foldl add transactions h]
  rfl

/-! ### Transactions -/

theorem GenTxWithLogs_returns (name : String) (height : Nat) (hash txHash : Bytes)
    (idx : Nat) (inputSize : Int) (logs : List (Option EthLog))
    (h : 0 ≤ inputSize ∧ inputSize ≤ maxAlloc) :
    Gen.Returns (GenTxWithLogs name height hash txHash idx inputSize logs)
      (fun t => ∃ tx e, t = some tx ∧ tx.BlockchainName = name ∧ tx.BlockHash = hash ∧
        tx.BlockHeight = height ∧ tx.TransactionIndex = idx ∧ tx.TransactionHash = txHash ∧
        tx.Specific = some (.EthTx (some e)) ∧ e.Status = 1 ∧
        e.Input.length = inputSize.toNat ∧ e.Logs = logs) := by
  unfold GenTxWithLogs
  refine Gen.Returns.bind randUint64_returns fun _ _ => ?_
  refine Gen.Returns.bind randUint64_returns fun _ _ => ?_
  refine Gen.Returns.bind GenAddress_returns fun _ _ => ?_
  refine Gen.Returns.bind GenAddress_returns fun _ _ => ?_
  refine Gen.Returns.bind GenHash_returns fun _ _ => ?_
  refine Gen.Returns.bind randUint64_returns fun _ _ => ?_
  refine Gen.Returns.bind GenHash_returns fun _ _ => ?_
  refine Gen.Returns.bind (GenBytes_returns inputSize h.1 h.2) fun input hinput => ?_
  refine Gen.Returns.bind GenAddress_returns fun _ _ => ?_
  refine Gen.Returns.bind randUint64_returns fun _ _ => ?_
  refine Gen.Returns.bind randUint64_returns fun _ _ => ?_
  exact Gen.Returns.of_pure ⟨_, _, rfl, rfl, rfl, rfl, rfl, rfl, rfl, rfl, hinput, rfl⟩

theorem GenTx_logs_returns (logsCount logsDataSize : Int)
    (h : (0 ≤ logsDataSize ∧ logsDataSize ≤ maxAlloc) ∨ logsCount ≤ 0) :
    Gen.Returns
      (forLoop logsCount (fun i logs => do
        let log ← GenLog (i % 2 ^ 32) logsDataSize
        return logs ++ [log]) [])
      (fun logs => logs.length = logsCount.toNat ∧ ∀ l ∈ logs, LogShape logsDataSize l) := by
  refine forLoop_returns logsCount _ []
    (fun i logs => logs.length = i ∧ ∀ l ∈ logs, LogShape logsDataSize l) ⟨rfl, ?_⟩ ?_
  · intro l hl
    cases hl
  · intro i logs hi hinv
    have hsize : 0 ≤ logsDataSize ∧ logsDataSize ≤ maxAlloc := by
      rcases h with h | h
      · exact h
      · omega
    refine Gen.Returns.bind (GenLog_returns _ logsDataSize hsize.1 hsize.2) fun log hlog => ?_
    refine Gen.Returns.of_pure ⟨by simp [hinv.1], ?_⟩
    intro l hl
    rcases List.mem_append.mp hl with hl | hl
    · exact hinv.2 l hl
    · rw [List.mem_singleton.mp hl]
      exact hlog

theorem GenTx_returns (name : String) (height : Nat) (hash txHash : Bytes) (idx : Nat)
    (inputSize logsCount logsDataSize : Int) (h : 0 ≤ inputSize ∧ inputSize ≤ maxAlloc)
    (hd : (0 ≤ logsDataSize ∧ logsDataSize ≤ maxAlloc) ∨ logsCount ≤ 0) :
    Gen.Returns (GenTx name height hash txHash idx inputSize logsCount logsDataSize)
      (TxShape name height hash idx inputSize.toNat logsCount.toNat logsDataSize.toNat) := by
  unfold GenTx
  refine Gen.Returns.bind (GenTx_logs_returns logsCount logsDataSize hd) fun logs hlogs => ?_
  refine (GenTxWithLogs_returns name height hash txHash idx inputSize logs h).mono ?_
  rintro t ⟨tx, e, rfl, h1, h2, h3, h4, _, h6, h7, h8, h9⟩
  refine ⟨tx, e, rfl, h1, h2, h3, h4, h6, h7, h8, by rw [h9]; exact hlogs.1, ?_⟩
  intro l hl
  rw [h9] at hl
  obtain ⟨log, hlog, hdata, _⟩ := hlogs.2 l hl
  exact ⟨log, hlog, hdata⟩

theorem TxShape.ethereum {name : String} {height : Nat} {hash : Bytes}
    {idx inputLen logsCount dataLen : Nat} {t : Option Transaction}
    (h : TxShape name height hash idx inputLen logsCount dataLen t) :
    isEthereumTx t = true := by
  obtain ⟨tx, e, rfl, _, _, _, _, hs, _, _, _, hlogs⟩ := h
  unfold isEthereumTx
  simp only [hs, List.all_eq_true]
  intro l hl
  obtain ⟨log, rfl, _⟩ := hlogs l hl
  rfl

/-! ### Blocks -/

theorem GenBlock_yields (add : Bloom → Bytes → Bloom) (name : String) (height : Nat)
    (hash parent : Bytes) (transactions : List (Option Transaction)) :
    Gen.Yields (GenBlock add name height hash parent transactions)
      (BlockShape add name height hash parent transactions) := by
  unfold GenBlock
  iterate 14 refine Gen.Yields.seq (Gen.Yields.trivial _) fun _ _ => ?_
  refine Gen.Yields.seq (Gen.Yields.of_liftYield _) fun bloom hbloom => ?_
  exact Gen.Yields.of_value ⟨_, _, _, rfl, rfl, rfl, rfl, rfl, rfl, rfl, rfl, rfl, hbloom⟩

theorem GenBlock_returns (add : Bloom → Bytes → Bloom) (name : String) (height : Nat)
    (hash parent : Bytes) (transactions : List (Option Transaction))
    (h : ∀ t ∈ transactions, isEthereumTx t = true) :
    Gen.Returns (GenBlock add name height hash parent transactions)
      (BlockShape add name height hash parent transactions) := by
  unfold GenBlock
  refine Gen.Returns.bind randUint64_returns fun _ _ => ?_
  refine Gen.Returns.bind GenAddress_returns fun _ _ => ?_
  iterate 3 refine Gen.Returns.bind GenHash_returns fun _ _ => ?_
  refine Gen.Returns.bind GenAddress_returns fun _ _ => ?_
  iterate 3 refine Gen.Returns.bind GenHash_returns fun _ _ => ?_
  iterate 3 refine Gen.Returns.bind randUint64_returns fun _ _ => ?_
  iterate 2 refine Gen.Returns.bind GenHash_returns fun _ _ => ?_
  refine Gen.Returns.bind (Gen.Returns.of_lift (GenLogsBloom_eq add transactions h))
    fun bloom hbloom => ?_
  refine Gen.Returns.of_pure ⟨_, _, _, rfl, rfl, rfl, rfl, rfl, rfl, rfl, rfl, rfl, ?_⟩
  rw [hbloom]
  exact GenLogsBloom_eq add transactions h

/-- The transactions the loops of `GenBlockWithTxs` and `GenBlockWithLargeTxs` build. -/
theorem GenBlock_txs_returns (name : String) (height : Nat) (hash : Bytes)
    (txsCount inputSize : Int)
    (h : (0 ≤ inputSize ∧ inputSize ≤ maxAlloc) ∨ txsCount ≤ 0) :
    Gen.Returns
      (forLoop txsCount (fun i transactions => do
        let transactionHash ← GenHash
        let tx ← GenTx name height hash transactionHash (i % 2 ^ 64) inputSize 10 40
        return transactions ++ [tx]) [])
      (fun txs => txs.length = txsCount.toNat ∧ ∀ i, i < txs.length → ∃ t, txs[i]? = some t ∧
        TxShape name height hash (i % 2 ^ 64) inputSize.toNat 10 40 t) := by
  refine forLoop_returns txsCount _ []
    (fun n txs => txs.length = n ∧ ∀ i, i < txs.length → ∃ t, txs[i]? = some t ∧
      TxShape name height hash (i % 2 ^ 64) inputSize.toNat 10 40 t) ⟨rfl, ?_⟩ ?_
  · intro i hi
    simp at hi
  · intro n txs hn hinv
    have hsize : 0 ≤ inputSize ∧ inputSize ≤ maxAlloc := by
      rcases h with h | h
      · exact h
      · omega
    refine Gen.Returns.bind GenHash_returns fun txHash _ => ?_
    refine Gen.Returns.bind
      (GenTx_returns name height hash txHash (n % 2 ^ 64) inputSize 10 40 hsize
        (Or.inl ⟨by decide, by decide⟩)) fun tx htx => ?_
    refine Gen.Returns.of_pure ⟨by simp [hinv.1], ?_⟩
    intro i hi
    simp only [List.length_append, List.length_singleton] at hi
    by_cases hlt : i < txs.length
    · obtain ⟨t, ht, hshape⟩ := hinv.2 i hlt
      exact ⟨t, by rw [List.getElem?_append_left hlt]; exact ht, hshape⟩
    · have hi' : i = txs.length := by omega
      refine ⟨tx, ?_, ?_⟩
      · rw [hi']; simp
      · rw [hi', hinv.1]
        exact htx

theorem GenBlock_txs_isEthereumTx {name : String} {height : Nat} {hash : Bytes}
    {inputLen : Nat} {txs : List (Option Transaction)}
    (h : ∀ i, i < txs.length → ∃ t, txs[i]? = some t ∧
      TxShape name height hash (i % 2 ^ 64) inputLen 10 40 t) :
    ∀ t ∈ txs, isEthereumTx t = true := by
  intro t ht
  obtain ⟨i, hi, hget⟩ := List.getElem_of_mem ht
  obtain ⟨t', ht', hshape⟩ := h i hi
  rw [List.getElem?_eq_getElem hi, hget] at ht'
  injection ht' with ht'
  exact (ht' ▸ hshape).ethereum

/-- What `GenBlockWithTxs` promises about the block it returns. -/
theorem GenBlockWithTxs_returns (add : Bloom → Bytes → Bloom) (name : String) (height : Nat)
    (hash parent : Bytes) (txsCount : Int) :
    Gen.Returns (GenBlockWithTxs add name height hash parent txsCount)
      (fun b => ∃ txs, BlockShape add name height hash parent txs b ∧
        txs.length = txsCount.toNat ∧ ∀ i, i < txs.length → ∃ t, txs[i]? = some t ∧
          TxShape name height hash (i % 2 ^ 64) 500 10 40 t) := by
  unfold GenBlockWithTxs
  refine Gen.Returns.bind
    (GenBlock_txs_returns name height hash txsCount 500 (Or.inl ⟨by decide, by decide⟩))
    fun txs htxs => ?_
  refine (GenBlock_returns add name height hash parent txs
    (GenBlock_txs_isEthereumTx htxs.2)).mono ?_
  intro b hb
  exact ⟨txs, hb, htxs.1, htxs.2⟩

theorem GenBlockWithLargeTxs_returns (add : Bloom → Bytes → Bloom) (name : String)
    (height : Nat) (hash : Bytes) (txsCount inputSize : Int)
    (h : (0 ≤ inputSize ∧ inputSize ≤ maxAlloc) ∨ txsCount ≤ 0) :
    Gen.Returns (GenBlockWithLargeTxs add name height hash txsCount inputSize)
      (fun b => ∃ txs parent, BlockShape add name height hash parent txs b ∧
        txs.length = txsCount.toNat) := by
  unfold GenBlockWithLargeTxs
  refine Gen.Returns.bind
    (GenBlock_txs_returns name height hash txsCount inputSize h) fun txs htxs => ?_
  refine Gen.Returns.bind GenHash_returns fun parent _ => ?_
  refine (GenBlock_returns add name height hash parent txs
    (GenBlock_txs_isEthereumTx htxs.2)).mono ?_
  intro b hb
  exact ⟨txs, parent, hb, htxs.1⟩

theorem GenBlockWithLargeTxs_yields (add : Bloom → Bytes → Bloom) (name : String)
    (height : Nat) (hash : Bytes) (txsCount inputSize : Int) :
    Gen.Yields (GenBlockWithLargeTxs add name height hash txsCount inputSize)
      (fun b => ∃ txs parent, BlockShape add name height hash parent txs b ∧
        txs.length = txsCount.toNat) := by
  unfold GenBlockWithLargeTxs
  refine Gen.Yields.seq
    (forLoop_yields txsCount _ [] (fun n txs => txs.length = n) rfl ?_) fun txs htxs => ?_
  · intro n txs _ hlen
    refine Gen.Yields.seq (Gen.Yields.trivial _) fun _ _ => ?_
    refine Gen.Yields.seq (Gen.Yields.trivial _) fun _ _ => ?_
    exact Gen.Yields.of_value (by simp [hlen])
  · refine Gen.Yields.seq (Gen.Yields.trivial _) fun parent _ => ?_
    intro r b r' hb
    exact ⟨txs, parent, GenBlock_yields add name height hash parent txs r b r' hb, htxs⟩

/-! ### Sequences of blocks -/

theorem GenSequenceStep_returns (add : Bloom → Bytes → Bloom) (name : String) (height : Nat)
    (hash parent : Bytes) (txsCount : Int) (i : Nat) (s : SeqState)
    (h : ∃ g, s.parentHash = g i ∧ s.blockHash = g (i + 1) ∧
      SeqShape add name height hash parent txsCount i g s.blocks) :
    Gen.Returns (GenSequenceStep add name height txsCount i s)
      (fun s' => ∃ g, s'.parentHash = g (i + 1) ∧ s'.blockHash = g (i + 1 + 1) ∧
        SeqShape add name height hash parent txsCount (i + 1) g s'.blocks) := by
  obtain ⟨g, hp, hh, hg0, hg1, hlen, hblocks⟩ := h
  unfold GenSequenceStep
  refine Gen.Returns.bind (GenBlockWithTxs_returns add name _ s.blockHash s.parentHash txsCount)
    fun b hb => ?_
  refine Gen.Returns.bind GenHash_returns fun fresh _ => ?_
  obtain ⟨txs, hshape, htxs, _⟩ := hb
  refine Gen.Returns.of_pure ⟨Function.update g (i + 2) fresh, ?_, ?_, ?_, ?_, ?_, ?_⟩
  · show s.blockHash = _
    rw [Function.update_noteq (by omega), hh]
  · show fresh = _
    rw [Function.update_same]
  · rw [Function.update_noteq (by omega), hg0]
  · rw [Function.update_noteq (by omega), hg1]
  · simp [hlen]
  · intro j hj
    rw [Function.update_noteq (by omega), Function.update_noteq (by omega)]
    by_cases hlt : j < i
    · obtain ⟨b', txs', hget, hrest⟩ := hblocks j hlt
      refine ⟨b', txs', ?_, hrest⟩
      show (s.blocks ++ [b])[j]? = _
      rw [List.getElem?_append_left (by omega)]
      exact hget
    · have hji : j = i := by omega
      subst hji
      refine ⟨b, txs, ?_, ?_, htxs⟩
      · show (s.blocks ++ [b])[j]? = _
        rw [← hlen]
        simp
      · rw [Nat.add_mod_mod, hh, hp] at hshape
        exact hshape

theorem GenSequence_returns (add : Bloom → Bytes → Bloom) (blocksCount : Int) (name : String)
    (height : Nat) (hash parent : Bytes) (txsCount : Int) :
    Gen.Returns (GenSequence add blocksCount name height hash parent txsCount)
      (fun blocks => ∃ g,
        SeqShape add name height hash parent txsCount blocksCount.toNat g blocks) := by
  unfold GenSequence
  refine Gen.Returns.bind
    (forLoop_returns blocksCount _ _
      (fun i s => ∃ g, s.parentHash = g i ∧ s.blockHash = g (i + 1) ∧
        SeqShape add name height hash parent txsCount i g s.blocks) ?_ ?_) ?_
  · refine ⟨fun j => if j = 0 then parent else hash, rfl, rfl, rfl, rfl, rfl, ?_⟩
    intro j hj
    omega
  · intro i s _ hinv
    exact GenSequenceStep_returns add name height hash parent txsCount i s hinv
  · rintro s ⟨g, _, _, hshape⟩
    exact Gen.Returns.of_pure ⟨g, hshape⟩

/-! ### Runs that panic -/

theorem Gen.Panics.first {α β : Type} {m : Gen α} {f : α → Gen β} {p : Panic}
    (hm : Gen.Panics m p) : Gen.Panics (m >>= f) p := by
  intro r
  show Gen.bind m f r = _
  simp only [Gen.bind, hm r]

theorem Gen.Returns.then_panics {α β : Type} {m : Gen α} {f : α → Gen β} {P : α → Prop}
    {p : Panic} (hm : Gen.Returns m P) (hf : ∀ a, P a → Gen.Panics (f a) p) :
    Gen.Panics (m >>= f) p := by
  intro r
  obtain ⟨a, r', hr, hP⟩ := hm r
  show Gen.bind m f r = _
  simp only [Gen.bind, hr, hf a hP r']

theorem makeBytes_panics (size : Int) (h : size < 0 ∨ maxAlloc < size) :
    Gen.Panics (makeBytes size) .makesliceLenOutOfRange := by
  intro r
  unfold makeBytes
  rw [if_pos h]
  rfl

theorem GenBytes_panics (size : Int) (h : size < 0 ∨ maxAlloc < size) :
    Gen.Panics (GenBytes size) .makesliceLenOutOfRange := by
  unfold GenBytes
  exact Gen.Panics.first (makeBytes_panics size h)

theorem GenLog_panics (logIndex : Nat) (dataSize : Int) (h : dataSize < 0 ∨ maxAlloc < dataSize) :
    Gen.Panics (GenLog logIndex dataSize) .makesliceLenOutOfRange := by
  unfold GenLog
  refine Gen.Returns.then_panics GenAddress_returns fun _ _ => ?_
  refine Gen.Returns.then_panics GenHash_returns fun _ _ => ?_
  refine Gen.Returns.then_panics GenHash_returns fun _ _ => ?_
  exact Gen.Panics.first (GenBytes_panics dataSize h)

theorem GenTxWithLogs_panics (name : String) (height : Nat) (hash txHash : Bytes)
    (idx : Nat) (inputSize : Int) (logs : List (Option EthLog))
    (h : inputSize < 0 ∨ maxAlloc < inputSize) :
    Gen.Panics (GenTxWithLogs name height hash txHash idx inputSize logs)
      .makesliceLenOutOfRange := by
  unfold GenTxWithLogs
  refine Gen.Returns.then_panics randUint64_returns fun _ _ => ?_
  refine Gen.Returns.then_panics randUint64_returns fun _ _ => ?_
  refine Gen.Returns.then_panics GenAddress_returns fun _ _ => ?_
  refine Gen.Returns.then_panics GenAddress_returns fun _ _ => ?_
  refine Gen.Returns.then_panics GenHash_returns fun _ _ => ?_
  refine Gen.Returns.then_panics randUint64_returns fun _ _ => ?_
  refine Gen.Returns.then_panics GenHash_returns fun _ _ => ?_
  exact Gen.Panics.first (GenBytes_panics inputSize h)

/-- A counting loop whose bound is positive panics when its first iteration does. -/
theorem forLoop_panics {σ : Type} (n : Int) (body : Nat → σ → Gen σ) (init : σ) (p : Panic)
    (hn : 0 < n) (h : Gen.Panics (body 0 init) p) : Gen.Panics (forLoop n body init) p := by
  unfold forLoop
  obtain ⟨k, hk⟩ : ∃ k, n.toNat = k + 1 := ⟨n.toNat - 1, by omega⟩
  rw [hk]
  unfold forLoopFrom
  exact Gen.Panics.first h

theorem GenTx_panics (name : String) (height : Nat) (hash txHash : Bytes) (idx : Nat)
    (inputSize logsCount logsDataSize : Int)
    (h : ¬ ((0 ≤ inputSize ∧ inputSize ≤ maxAlloc) ∧
      ((0 ≤ logsDataSize ∧ logsDataSize ≤ maxAlloc) ∨ logsCount ≤ 0))) :
    Gen.Panics (GenTx name height hash txHash idx inputSize logsCount logsDataSize)
      .makesliceLenOutOfRange := by
  unfold GenTx
  by_cases hlogs : (0 ≤ logsDataSize ∧ logsDataSize ≤ maxAlloc) ∨ logsCount ≤ 0
  · refine Gen.Returns.then_panics (GenTx_logs_returns logsCount logsDataSize hlogs)
      fun logs _ => ?_
    exact GenTxWithLogs_panics name height hash txHash idx inputSize logs (by omega)
  · refine Gen.Panics.first (forLoop_panics logsCount _ [] _ (by omega) ?_)
    exact Gen.Panics.first (GenLog_panics _ logsDataSize (by omega))

theorem GenBlockWithLargeTxs_panics (add : Bloom → Bytes → Bloom) (name : String)
    (height : Nat) (hash : Bytes) (txsCount inputSize : Int)
    (h : ¬ ((0 ≤ inputSize ∧ inputSize ≤ maxAlloc) ∨ txsCount ≤ 0)) :
    Gen.Panics (GenBlockWithLargeTxs add name height hash txsCount inputSize)
      .makesliceLenOutOfRange := by
  unfold GenBlockWithLargeTxs
  refine Gen.Panics.first (forLoop_panics txsCount _ [] _ (by omega) ?_)
  refine Gen.Returns.then_panics GenHash_returns fun txHash _ => ?_
  refine Gen.Panics.first ?_
  exact GenTx_panics name height hash txHash _ inputSize 10 40 (by omega)

theorem GenBlock_panics (add : Bloom → Bytes → Bloom) (name : String) (height : Nat)
    (hash parent : Bytes) (transactions : List (Option Transaction)) (p : Panic)
    (h : GenLogsBloom add transactions = .error p) :
    Gen.Panics (GenBlock add name height hash parent transactions) p := by
  unfold GenBlock
  refine Gen.Returns.then_panics randUint64_returns fun _ _ => ?_
  refine Gen.Returns.then_panics GenAddress_returns fun _ _ => ?_
  iterate 3 refine Gen.Returns.then_panics GenHash_returns fun _ _ => ?_
  refine Gen.Returns.then_panics GenAddress_returns fun _ _ => ?_
  iterate 3 refine Gen.Returns.then_panics GenHash_returns fun _ _ => ?_
  iterate 3 refine Gen.Returns.then_panics randUint64_returns fun _ _ => ?_
  iterate 2 refine Gen.Returns.then_panics GenHash_returns fun _ _ => ?_
  refine Gen.Panics.first ?_
  intro r
  unfold Gen.lift
  rw [h]

theorem addLogs_ok_all (add : Bloom → Bytes → Bloom) (logs : List (Option EthLog)) :
    ∀ bin b, addLogs add bin logs = .ok b → logs.all Option.isSome = true := by
  induction logs with
  | nil => intro _ _ _; rfl
  | cons l rest ih =>
    intro bin b h
    cases l with
    | none =>
      unfold addLogs at h
      cases h
    | some log =>
      unfold addLogs at h
      simp only [List.all_cons, Option.isSome_some, Bool.true_and]
      exact ih _ b h

theorem ethLogs_ok (t : Option Transaction) (logs : List (Option EthLog))
    (h : ethLogs t = .ok logs) :
    ∃ tx e, t = some tx ∧ tx.Specific = some (.EthTx (some e)) ∧ e.Logs = logs := by
  cases t with
  | none => cases h
  | some tx =>
    obtain ⟨name, txHash, blockHash, height, idx, ts, spec⟩ := tx
    rcases spec with _ | (_ | e) | _
    · cases h
    · cases h
    · refine ⟨_, e, rfl, rfl, ?_⟩
      injection h
    · cases h

theorem addTransactions_ok_all (add : Bloom → Bytes → Bloom)
    (transactions : List (Option Transaction)) :
    ∀ bin b, addTransactions add bin transactions = .ok b →
      ∀ t ∈ transactions, isEthereumTx t = true := by
  induction transactions with
  | nil =>
    intro _ _ _ t ht
    cases ht
  | cons t rest ih =>
    intro bin b h t' ht'
    unfold addTransactions at h
    cases h1 : ethLogs t with
    | error e =>
      rw [h1] at h
      cases h
    | ok logs =>
      rw [h1] at h
      cases h2 : addLogs add bin logs with
      | error e =>
        have h' : (addLogs add bin logs >>= fun bin => addTransactions add bin rest)
            = .ok b := h
        rw [h2] at h'
        cases h'
      | ok bin' =>
        have h' : (addLogs add bin logs >>= fun bin => addTransactions add bin rest)
            = .ok b := h
        rw [h2] at h'
        rcases List.mem_cons.mp ht' with rfl | hmem
        · obtain ⟨tx, e, rfl, hs, hl⟩ := ethLogs_ok _ logs h1
          have hall := addLogs_ok_all add logs bin bin' h2
          unfold isEthereumTx
          simp only [hs]
          rw [hl]
          exact hall
        · exact ih bin' b h' t' hmem

theorem GenLogsBloom_error (add : Bloom → Bytes → Bloom)
    (transactions : List (Option Transaction))
    (h : ¬ ∀ t ∈ transactions, isEthereumTx t = true) :
    ∃ p, GenLogsBloom add transactions = .error p := by
  unfold GenLogsBloom
  cases h1 : addTransactions add Bloom.zero transactions with
  | error p => exact ⟨p, rfl⟩
  | ok b => exact absurd (addTransactions_ok_all add transactions _ b h1) h

/-! ## The generator's properties -/

theorem SeqShape.headerAt {add : Bloom → Bytes → Bloom} {name : String} {height : Nat}
    {hash parent : Bytes} {txsCount : Int} {count : Nat} {g : Nat → Bytes}
    {blocks : List (Option Block)}
    (h : SeqShape add name height hash parent txsCount count g blocks) (j : Nat)
    (hj : j < count) :
    ∃ blk hd, blocks[j]? = some (some blk) ∧ blk.Header = some hd ∧
      hd.BlockchainName = name ∧ hd.BlockHeight = (height + j) % 2 ^ 64 ∧
      hd.BlockHash = g (j + 1) ∧ hd.ParentHash = g j ∧
      hd.TransactionsCount = blk.Transactions.length % 2 ^ 64 ∧
      blk.Transactions.length = txsCount.toNat := by
  obtain ⟨b, txs, hget, ⟨blk, hd, eb, rfl, hhd, htx, h1, h2, h3, h4, h5, _⟩, hlen⟩ := h.2.2.2 j hj
  exact ⟨blk, hd, hget, hhd, h1, h2, h3, h4, by rw [htx]; exact h5, by rw [htx]; exact hlen⟩

/-- C1: for every `blocksCount` and every other argument `GenSequence` returns, and
the list it returns has exactly `max blocksCount 0` blocks; for `blocksCount ≤ 0` it
is the empty list, not a failure. -/
theorem GenSequence_length (add : Bloom → Bytes → Bloom) (blocksCount : Int) (name : String)
    (height : Nat) (hash parent : Bytes) (txsCount : Int) (r : Rand) :
    ∃ blocks r', GenSequence add blocksCount name height hash parent txsCount r
        = .ok (blocks, r') ∧
      (blocks.length : Int) = max blocksCount 0 ∧ (blocksCount ≤ 0 → blocks = []) := by
  obtain ⟨blocks, r', hrun, g, hshape⟩ :=
    GenSequence_returns add blocksCount name height hash parent txsCount r
  have hlen : blocks.length = blocksCount.toNat := hshape.2.2.1
  refine ⟨blocks, r', hrun, by omega, ?_⟩
  intro hneg
  exact List.length_eq_zero.mp (by omega)

/-- C2: in the list `GenSequence` returns, for every index `i` with
`1 ≤ i ≤ blocksCount - 1` the parent hash of block `i` is the block hash of block
`i - 1`; and when `blocksCount ≥ 1`, block `0` carries the supplied hash and the
supplied parent hash. -/
theorem GenSequence_chained (add : Bloom → Bytes → Bloom) (blocksCount : Int) (name : String)
    (height : Nat) (hash parent : Bytes) (txsCount : Int) (r : Rand) :
    ∃ blocks r', GenSequence add blocksCount name height hash parent txsCount r
        = .ok (blocks, r') ∧
      (∀ i : Nat, 1 ≤ i → (i : Int) ≤ blocksCount - 1 →
        ∃ prev cur hprev hcur, blocks[i - 1]? = some (some prev) ∧
          blocks[i]? = some (some cur) ∧ prev.Header = some hprev ∧
          cur.Header = some hcur ∧ hcur.ParentHash = hprev.BlockHash) ∧
      (1 ≤ blocksCount →
        ∃ first hd, blocks[0]? = some (some first) ∧ first.Header = some hd ∧
          hd.BlockHash = hash ∧ hd.ParentHash = parent) := by
  obtain ⟨blocks, r', hrun, g, hshape⟩ :=
    GenSequence_returns add blocksCount name height hash parent txsCount r
  refine ⟨blocks, r', hrun, ?_, ?_⟩
  · intro i hi hin
    obtain ⟨prev, hprev, hp1, hp2, _, _, hp5, _⟩ := hshape.headerAt (i - 1) (by omega)
    obtain ⟨cur, hcur, hc1, hc2, _, _, _, hc6, _⟩ := hshape.headerAt i (by omega)
    refine ⟨prev, cur, hprev, hcur, hp1, hc1, hp2, hc2, ?_⟩
    rw [hc6, hp5]
    congr 1
    omega
  · intro hn
    obtain ⟨first, hd, h1, h2, _, _, h5, h6, _⟩ := hshape.headerAt 0 (by omega)
    exact ⟨first, hd, h1, h2, by rw [h5]; exact hshape.2.1, by rw [h6]; exact hshape.1⟩

/-- C3: block `i` of the list `GenSequence` returns has height `blockHeight + i`
(in unsigned 64-bit arithmetic) and the supplied blockchain name, for every index
`i < blocksCount`; for three blocks from height 100 the heights are 100, 101, 102. -/
theorem GenSequence_heights :
    (∀ (add : Bloom → Bytes → Bloom) (blocksCount : Int) (name : String) (height : Nat)
        (hash parent : Bytes) (txsCount : Int) (r : Rand),
      ∃ blocks r', GenSequence add blocksCount name height hash parent txsCount r
          = .ok (blocks, r') ∧
        ∀ i : Nat, (i : Int) < blocksCount →
          ∃ blk hd, blocks[i]? = some (some blk) ∧ blk.Header = some hd ∧
            hd.BlockHeight = (height + i) % 2 ^ 64 ∧ hd.BlockchainName = name) ∧
    (∀ (add : Bloom → Bytes → Bloom) (name : String) (hash parent : Bytes) (txsCount : Int)
        (r : Rand),
      ∃ b0 b1 b2 h0 h1 h2 r', GenSequence add 3 name 100 hash parent txsCount r
          = .ok ([some b0, some b1, some b2], r') ∧
        b0.Header = some h0 ∧ b1.Header = some h1 ∧ b2.Header = some h2 ∧
        h0.BlockHeight = 100 ∧ h1.BlockHeight = 101 ∧ h2.BlockHeight = 102) := by
  constructor
  · intro add blocksCount name height hash parent txsCount r
    obtain ⟨blocks, r', hrun, g, hshape⟩ :=
      GenSequence_returns add blocksCount name height hash parent txsCount r
    refine ⟨blocks, r', hrun, ?_⟩
    intro i hi
    obtain ⟨blk, hd, h1, h2, h3, h4, _⟩ := hshape.headerAt i (by omega)
    exact ⟨blk, hd, h1, h2, h4, h3⟩
  · intro add name hash parent txsCount r
    obtain ⟨blocks, r', hrun, g, hshape⟩ :=
      GenSequence_returns add 3 name 100 hash parent txsCount r
    obtain ⟨b0, h0, hb0, hh0, _, hv0, _⟩ := hshape.headerAt 0 (by decide)
    obtain ⟨b1, h1, hb1, hh1, _, hv1, _⟩ := hshape.headerAt 1 (by decide)
    obtain ⟨b2, h2, hb2, hh2, _, hv2, _⟩ := hshape.headerAt 2 (by decide)
    have hlen : blocks.length = 3 := hshape.2.2.1
    refine ⟨b0, b1, b2, h0, h1, h2, r', ?_, hh0, hh1, hh2, hv0, hv1, hv2⟩
    rw [hrun]
    match blocks, hlen, hb0, hb1, hb2 with
    | [x, y, z], _, hx, hy, hz =>
      simp only [List.getElem?_cons_zero, List.getElem?_cons_succ, Option.some.injEq] at hx hy hz
      rw [hx, hy, hz]

/-- C5, as amended: for every `logIndex` and every `dataSize ≥ 0`, zero included, that
does not exceed the limit `make` puts on the length of a slice, `GenLog` returns a
log whose data has exactly `dataSize` bytes, with exactly two topics of 32 bytes
each, an address of 20 bytes and the `Removed` flag false; for a `dataSize` above
that limit `GenLog` panics and returns no log. -/
theorem GenLog_shape (logIndex : Nat) (dataSize : Int) (h : 0 ≤ dataSize) (r : Rand) :
    (dataSize ≤ maxAlloc →
      ∃ log r', GenLog logIndex dataSize r = .ok (some log, r') ∧
        (log.Data.length : Int) = dataSize ∧ log.Topics.length = 2 ∧
        (∀ t ∈ log.Topics, t.length = 32) ∧ log.Address.length = 20 ∧
        log.Removed = false) ∧
    (maxAlloc < dataSize → GenLog logIndex dataSize r = .error .makesliceLenOutOfRange) := by
  constructor
  · intro hmax
    obtain ⟨l, r', hrun, log, rfl, h1, h2, h3, h4, h5⟩ :=
      GenLog_returns logIndex dataSize h hmax r
    exact ⟨log, r', hrun, by omega, h2, h3, h4, h5⟩
  · intro hmax
    exact GenLog_panics logIndex dataSize (Or.inr hmax) r

/-- The run `GenLog(5, 40)` of the specification's example, and the run with
`dataSize = 0`. -/
theorem GenLog_shape_witness :
    (∃ log r', GenLog 5 40 sampleRand = .ok (some log, r') ∧
      (log.Data.length : Int) = 40 ∧ log.Topics.length = 2 ∧
      (∀ t ∈ log.Topics, t.length = 32) ∧ log.Address.length = 20 ∧ log.Removed = false) ∧
    (∃ log r', GenLog 0 0 sampleRand = .ok (some log, r') ∧
      (log.Data.length : Int) = 0 ∧ log.Topics.length = 2 ∧
      (∀ t ∈ log.Topics, t.length = 32) ∧ log.Address.length = 20 ∧ log.Removed = false) :=
  ⟨(GenLog_shape 5 40 (by decide) sampleRand).1 (by decide),
    (GenLog_shape 0 0 (by decide) sampleRand).1 (by decide)⟩

/-- C5, the run that refutes it: `dataSize = 2 ^ 62` is not negative, and
`GenLog(0, 2 ^ 62)` panics in `make` instead of returning a log. -/
theorem GenLog_above_limit :
    (0 : Int) ≤ 2 ^ 62 ∧ GenLog 0 (2 ^ 62) sampleRand = .error .makesliceLenOutOfRange :=
  ⟨by decide, GenLog_panics 0 (2 ^ 62) (Or.inr (by decide)) sampleRand⟩

theorem BlockShape.count {add : Bloom → Bytes → Bloom} {name : String} {height : Nat}
    {hash parent : Bytes} {txs : List (Option Transaction)} {b : Option Block}
    (h : BlockShape add name height hash parent txs b) (hlen : txs.length < 2 ^ 63) :
    ∃ blk hd, b = some blk ∧ blk.Header = some hd ∧
      hd.TransactionsCount = blk.Transactions.length ∧ blk.Transactions = txs := by
  obtain ⟨blk, hd, eb, rfl, hhd, htx, _, _, _, _, hcount, _⟩ := h
  refine ⟨blk, hd, rfl, hhd, ?_, htx⟩
  rw [hcount, htx]
  exact Nat.mod_eq_of_lt (by omega)

/-- C4: every block produced by `GenBlock`, `GenBlockWithTxs`, `GenBlockWithLargeTxs`
or `GenSequence` has `Header.TransactionsCount` equal to the length of
`Transactions` (lengths and counts being in the range of a Go `int`); the
`Transactions` of `GenBlock` is the list supplied; for `GenBlockWithTxs` and
`GenSequence` with `txsCount ≥ 0` both numbers equal `txsCount`. `GenBlock` produces
a block for every list of Ethereum transactions, `GenBlockWithLargeTxs` for every
input size that `make` accepts and whenever `txsCount ≤ 0`, the other two always. -/
theorem transactionsCount_eq_length (add : Bloom → Bytes → Bloom) (name : String)
    (height : Nat) (hash parent : Bytes) (transactions : List (Option Transaction))
    (txsCount blocksCount inputSize : Int)
    (hlen : transactions.length < 2 ^ 63) (hcount : txsCount < 2 ^ 63) :
    ((∀ r b r', GenBlock add name height hash parent transactions r = .ok (b, r') →
        ∃ blk hd, b = some blk ∧ blk.Header = some hd ∧
          hd.TransactionsCount = blk.Transactions.length ∧ blk.Transactions = transactions) ∧
      ((∀ t ∈ transactions, isEthereumTx t = true) →
        ∀ r, ∃ b r', GenBlock add name height hash parent transactions r = .ok (b, r'))) ∧
    (∀ r, ∃ blk hd r',
        GenBlockWithTxs add name height hash parent txsCount r = .ok (some blk, r') ∧
        blk.Header = some hd ∧ hd.TransactionsCount = blk.Transactions.length ∧
        (0 ≤ txsCount → (hd.TransactionsCount : Int) = txsCount ∧
          (blk.Transactions.length : Int) = txsCount)) ∧
    ((∀ r b r', GenBlockWithLargeTxs add name height hash txsCount inputSize r = .ok (b, r') →
        ∃ blk hd, b = some blk ∧ blk.Header = some hd ∧
          hd.TransactionsCount = blk.Transactions.length) ∧
      ((0 ≤ inputSize ∧ inputSize ≤ maxAlloc) ∨ txsCount ≤ 0 → ∀ r, ∃ b r',
        GenBlockWithLargeTxs add name height hash txsCount inputSize r = .ok (b, r'))) ∧
    (∀ r, ∃ blocks r',
        GenSequence add blocksCount name height hash parent txsCount r = .ok (blocks, r') ∧
        ∀ b ∈ blocks, ∃ blk hd, b = some blk ∧ blk.Header = some hd ∧
          hd.TransactionsCount = blk.Transactions.length ∧
          (0 ≤ txsCount → (hd.TransactionsCount : Int) = txsCount ∧
            (blk.Transactions.length : Int) = txsCount)) := by
  refine ⟨⟨?_, ?_⟩, ?_, ⟨?_, ?_⟩, ?_⟩
  · intro r b r' hrun
    exact (GenBlock_yields add name height hash parent transactions r b r' hrun).count hlen
  · intro heth r
    obtain ⟨b, r', hrun, _⟩ := GenBlock_returns add name height hash parent transactions heth r
    exact ⟨b, r', hrun⟩
  · intro r
    obtain ⟨b, r', hrun, txs, hshape, htxs, _⟩ :=
      GenBlockWithTxs_returns add name height hash parent txsCount r
    obtain ⟨blk, hd, rfl, hhd, hc, htx⟩ := hshape.count (by omega)
    refine ⟨blk, hd, r', hrun, hhd, hc, ?_⟩
    intro hpos
    rw [hc, htx, htxs]
    omega
  · intro r b r' hrun
    obtain ⟨txs, p, hshape, htxs⟩ :=
      GenBlockWithLargeTxs_yields add name height hash txsCount inputSize r b r' hrun
    obtain ⟨blk, hd, rfl, hhd, hc, _⟩ := hshape.count (by omega)
    exact ⟨blk, hd, rfl, hhd, hc⟩
  · intro hsize r
    obtain ⟨b, r', hrun, _⟩ :=
      GenBlockWithLargeTxs_returns add name height hash txsCount inputSize hsize r
    exact ⟨b, r', hrun⟩
  · intro r
    obtain ⟨blocks, r', hrun, g, hshape⟩ :=
      GenSequence_returns add blocksCount name height hash parent txsCount r
    refine ⟨blocks, r', hrun, ?_⟩
    intro b hb
    obtain ⟨j, hj, hget⟩ := List.getElem_of_mem hb
    rw [hshape.2.2.1] at hj
    obtain ⟨blk, hd, h1, h2, _, _, _, _, h7, h8⟩ := hshape.headerAt j hj
    rw [List.getElem?_eq_getElem (by rw [hshape.2.2.1]; exact hj), hget] at h1
    injection h1 with h1
    have hc : hd.TransactionsCount = blk.Transactions.length := by
      rw [h7]
      exact Nat.mod_eq_of_lt (by omega)
    refine ⟨blk, hd, h1, h2, hc, ?_⟩
    intro hpos
    rw [hc, h8]
    omega

/-- The invariant of C4 on a block built from one sample transaction, on blocks of
two generated transactions and on a sequence of three blocks. -/
theorem transactionsCount_eq_length_witness :
    ((∀ r b r', GenBlock sampleAdd "ABCchain" 100 [8] [7] [some sampleTx] r = .ok (b, r') →
        ∃ blk hd, b = some blk ∧ blk.Header = some hd ∧
          hd.TransactionsCount = blk.Transactions.length ∧
          blk.Transactions = [some sampleTx]) ∧
      ((∀ t ∈ [some sampleTx], isEthereumTx t = true) →
        ∀ r, ∃ b r', GenBlock sampleAdd "ABCchain" 100 [8] [7] [some sampleTx] r
          = .ok (b, r'))) ∧
    (∀ r, ∃ blk hd r',
        GenBlockWithTxs sampleAdd "ABCchain" 100 [8] [7] 2 r = .ok (some blk, r') ∧
        blk.Header = some hd ∧ hd.TransactionsCount = blk.Transactions.length ∧
        ((0 : Int) ≤ 2 → (hd.TransactionsCount : Int) = 2 ∧
          (blk.Transactions.length : Int) = 2)) ∧
    ((∀ r b r', GenBlockWithLargeTxs sampleAdd "ABCchain" 100 [8] 2 1000 r = .ok (b, r') →
        ∃ blk hd, b = some blk ∧ blk.Header = some hd ∧
          hd.TransactionsCount = blk.Transactions.length) ∧
      (((0 : Int) ≤ 1000 ∧ (1000 : Int) ≤ maxAlloc) ∨ (2 : Int) ≤ 0 → ∀ r, ∃ b r',
        GenBlockWithLargeTxs sampleAdd "ABCchain" 100 [8] 2 1000 r = .ok (b, r'))) ∧
    (∀ r, ∃ blocks r',
        GenSequence sampleAdd 3 "ABCchain" 100 [8] [7] 2 r = .ok (blocks, r') ∧
        ∀ b ∈ blocks, ∃ blk hd, b = some blk ∧ blk.Header = some hd ∧
          hd.TransactionsCount = blk.Transactions.length ∧
          ((0 : Int) ≤ 2 → (hd.TransactionsCount : Int) = 2 ∧
            (blk.Transactions.length : Int) = 2)) :=
  transactionsCount_eq_length sampleAdd "ABCchain" 100 [8] [7] [some sampleTx] 2 3 1000
    (by decide) (by decide)

/-- C9: for every list of Ethereum transactions `GenBlock` returns a block whose
`LogsBloom` is `GenLogsBloom(transactions)`; that value is 256 bytes long and is the
filter obtained from the all-zero filter by adding, with the bloom `Add` operation,
the address and then each topic of every log of every transaction in order; without
logs it is 256 zero bytes; the random source has no influence on it, and two lists
of transactions with the same logs give the same filter. -/
theorem GenBlock_logsBloom (add : Bloom → Bytes → Bloom) (name : String) (height : Nat)
    (hash parent : Bytes) (transactions : List (Option Transaction))
    (heth : ∀ t ∈ transactions, isEthereumTx t = true) :
    (∀ r, ∃ blk hd eb r',
        GenBlock add name height hash parent transactions r = .ok (some blk, r') ∧
        blk.Header = some hd ∧ hd.Specific = some (.EthBlock (some eb)) ∧
        GenLogsBloom add transactions = .ok eb.LogsBloom ∧
        eb.LogsBloom = (bloomOf add (bloomInputs transactions)).bytes) ∧
    (∃ bloom, GenLogsBloom add transactions = .ok bloom ∧ bloom.length = 256 ∧
        bloom = (bloomOf add (bloomInputs transactions)).bytes ∧
        ((∀ t ∈ transactions, logsOf t = []) → bloom = List.replicate 256 0)) ∧
    (∀ others : List (Option Transaction), (∀ t ∈ others, isEthereumTx t = true) →
        others.map logsOf = transactions.map logsOf →
        GenLogsBloom add others = GenLogsBloom add transactions) := by
  have hbloom := GenLogsBloom_eq add transactions heth
  refine ⟨?_, ⟨(bloomOf add (bloomInputs transactions)).bytes, hbloom,
    (bloomOf add (bloomInputs transactions)).size, rfl, ?_⟩, ?_⟩
  · intro r
    obtain ⟨b, r', hrun, blk, hd, eb, rfl, h1, _, _, _, _, _, _, h8, h9⟩ :=
      GenBlock_returns add name height hash parent transactions heth r
    refine ⟨blk, hd, eb, r', hrun, h1, h8, h9, ?_⟩
    exact Except.ok.inj (h9.symm.trans hbloom)
  · intro hnone
    have : bloomInputs transactions = [] := by
      unfold bloomInputs
      rw [List.flatMap_eq_nil_iff]
      intro t ht
      rw [(ethLogs_of_isEthereumTx t (heth t ht)).2.2, hnone t ht]
      rfl
    rw [this]
    rfl
  · intro others hothers hsame
    rw [GenLogsBloom_eq add others hothers, hbloom]
    have key : ∀ l : List (Option Transaction), (∀ t ∈ l, isEthereumTx t = true) →
        bloomInputs l = (l.map logsOf).flatMap (fun logs => logs.flatMap logInputs) := by
      intro l hl
      induction l with
      | nil => rfl
      | cons t rest ih =>
        have ht := (ethLogs_of_isEthereumTx t (hl t (List.mem_cons_self _ _))).2.2
        have hrest := ih (fun t' ht' => hl t' (List.mem_cons_of_mem _ ht'))
        unfold bloomInputs at hrest ⊢
        simp only [List.flatMap_cons, List.map_cons]
        rw [ht, hrest]
    rw [key others hothers, key transactions heth, hsame]

/-- The bloom filter of a block built from one sample transaction. -/
theorem GenBlock_logsBloom_witness :
    (∀ r, ∃ blk hd eb r',
        GenBlock sampleAdd "ABCchain" 100 [8] [7] [some sampleTx] r = .ok (some blk, r') ∧
        blk.Header = some hd ∧ hd.Specific = some (.EthBlock (some eb)) ∧
        GenLogsBloom sampleAdd [some sampleTx] = .ok eb.LogsBloom ∧
        eb.LogsBloom = (bloomOf sampleAdd (bloomInputs [some sampleTx])).bytes) ∧
    (∃ bloom, GenLogsBloom sampleAdd [some sampleTx] = .ok bloom ∧ bloom.length = 256 ∧
        bloom = (bloomOf sampleAdd (bloomInputs [some sampleTx])).bytes ∧
        ((∀ t ∈ [some sampleTx], logsOf t = []) → bloom = List.replicate 256 0)) ∧
    (∀ others : List (Option Transaction), (∀ t ∈ others, isEthereumTx t = true) →
        others.map logsOf = [some sampleTx].map logsOf →
        GenLogsBloom sampleAdd others = GenLogsBloom sampleAdd [some sampleTx]) :=
  GenBlock_logsBloom sampleAdd "ABCchain" 100 [8] [7] [some sampleTx] (by decide)

/-- C10: in the block `GenBlockWithTxs` returns for `txsCount ≥ 0` (in the range of a
Go `int`), transaction `i`, for every `i < txsCount`, carries the supplied blockchain
name, the block's hash and height, the index `i`, status 1, an input of 500 bytes
and exactly 10 logs with 40 bytes of data each. -/
theorem GenBlockWithTxs_transactions (add : Bloom → Bytes → Bloom) (name : String)
    (height : Nat) (hash parent : Bytes) (txsCount : Int) (hpos : 0 ≤ txsCount)
    (hcount : txsCount < 2 ^ 63) (r : Rand) :
    ∃ blk hd r', GenBlockWithTxs add name height hash parent txsCount r = .ok (some blk, r') ∧
      blk.Header = some hd ∧ (blk.Transactions.length : Int) = txsCount ∧
      ∀ i : Nat, (i : Int) < txsCount →
        ∃ tx e, blk.Transactions[i]? = some (some tx) ∧ tx.BlockchainName = name ∧
          tx.BlockHash = hd.BlockHash ∧ tx.BlockHeight = hd.BlockHeight ∧
          tx.TransactionIndex = i ∧ tx.Specific = some (.EthTx (some e)) ∧ e.Status = 1 ∧
          e.Input.length = 500 ∧ e.Logs.length = 10 ∧
          ∀ l ∈ e.Logs, ∃ log, l = some log ∧ log.Data.length = 40 := by
  obtain ⟨b, r', hrun, txs, ⟨blk, hd, eb, rfl, hhd, htx, _, hheight, hhash, _⟩, htxs, hshape⟩ :=
    GenBlockWithTxs_returns add name height hash parent txsCount r
  refine ⟨blk, hd, r', hrun, hhd, by rw [htx, htxs]; omega, ?_⟩
  intro i hi
  obtain ⟨t, hget, tx, e, rfl, h1, h2, h3, h4, h5, h6, h7, h8, h9⟩ := hshape i (by omega)
  refine ⟨tx, e, by rw [htx]; exact hget, h1, by rw [h2, hhash], by rw [h3, hheight], ?_, h5,
    h6, h7, h8, h9⟩
  rw [h4]
  exact Nat.mod_eq_of_lt (by omega)

/-- The transactions of a generated block of two transactions. -/
theorem GenBlockWithTxs_transactions_witness :
    ∃ blk hd r', GenBlockWithTxs sampleAdd "ABCchain" 100 [8] [7] 2 sampleRand
        = .ok (some blk, r') ∧
      blk.Header = some hd ∧ (blk.Transactions.length : Int) = 2 ∧
      ∀ i : Nat, (i : Int) < 2 →
        ∃ tx e, blk.Transactions[i]? = some (some tx) ∧ tx.BlockchainName = "ABCchain" ∧
          tx.BlockHash = hd.BlockHash ∧ tx.BlockHeight = hd.BlockHeight ∧
          tx.TransactionIndex = i ∧ tx.Specific = some (.EthTx (some e)) ∧ e.Status = 1 ∧
          e.Input.length = 500 ∧ e.Logs.length = 10 ∧
          ∀ l ∈ e.Logs, ∃ log, l = some log ∧ log.Data.length = 40 :=
  GenBlockWithTxs_transactions sampleAdd "ABCchain" 100 [8] [7] 2 (by decide) (by decide)
    sampleRand

/-! ## The comparator's properties -/

theorem bytesCompare_eq_zero_iff : ∀ a b : Bytes, bytesCompare a b = 0 ↔ a = b
  | [], [] => by simp [bytesCompare]
  | [], _ :: _ => by simp [bytesCompare]
  | _ :: _, [] => by simp [bytesCompare]
  | x :: xs, y :: ys => by
    unfold bytesCompare
    by_cases h1 : x < y
    · simp only [h1, if_true, List.cons.injEq]
      constructor
      · intro h; cases h
      · intro h; omega
    · by_cases h2 : y < x
      · simp only [h1, h2, if_true, if_false, List.cons.injEq]
        constructor
        · intro h; cases h
        · intro h; omega
      · have hxy : x = y := by omega
        subst hxy
        simp only [lt_irrefl, if_false, List.cons.injEq, true_and]
        exact bytesCompare_eq_zero_iff xs ys

theorem ProtoEqual_some {M : Type} (enc : M → Option Bytes) (a b : M) (x y : Bytes)
    (ha : enc a = some x) (hb : enc b = some y) :
    ProtoEqual enc a b =
      if x.length ≠ y.length then .error .lengthsDiffer
      else if 0 ≠ bytesCompare x y then .error .bytesDiffer
      else .ok () := by
  unfold ProtoEqual
  rw [ha, hb]
  rfl

theorem ProtoEqual_none_first {M : Type} (enc : M → Option Bytes) (a b : M)
    (ha : enc a = none) : ProtoEqual enc a b = .error .encodeFirst := by
  unfold ProtoEqual
  rw [ha]
  rfl

theorem ProtoEqual_none_second {M : Type} (enc : M → Option Bytes) (a b : M) (x : Bytes)
    (ha : enc a = some x) (hb : enc b = none) :
    ProtoEqual enc a b = .error .encodeSecond := by
  unfold ProtoEqual
  rw [ha, hb]
  rfl

theorem ProtoEqual_ok_iff {M : Type} (enc : M → Option Bytes) (a b : M) :
    ProtoEqual enc a b = .ok () ↔ ∃ x, enc a = some x ∧ enc b = some x := by
  cases ha : enc a with
  | none =>
    rw [ProtoEqual_none_first enc a b ha]
    simp
  | some x =>
    cases hb : enc b with
    | none =>
      rw [ProtoEqual_none_second enc a b x ha hb]
      simp
    | some y =>
      rw [ProtoEqual_some enc a b x y ha hb]
      by_cases hlen : x.length = y.length
      · by_cases hcmp : bytesCompare x y = 0
        · have hxy := (bytesCompare_eq_zero_iff x y).mp hcmp
          subst hxy
          simp [hcmp]
        · have hxy : x ≠ y := fun h => hcmp ((bytesCompare_eq_zero_iff x y).mpr h)
          have hcmp' : ¬ 0 = bytesCompare x y := fun h => hcmp h.symm
          simp [hlen, hcmp', hxy.symm]
      · have hxy : x ≠ y := fun h => hlen (by rw [h])
        simp [hlen, hxy.symm]

/-- C7: `ProtoEqual` passes exactly when both messages encode without error and the
two encodings are the same byte sequence; it stops the test when an encoding fails,
when the encoded lengths differ and when the bytes differ at some position; and a
message that encodes is equal to itself. -/
theorem ProtoEqual_passes_iff {M : Type} (enc : M → Option Bytes) (a b : M) :
    (ProtoEqual enc a b = .ok () ↔ ∃ x, enc a = some x ∧ enc b = some x) ∧
    (enc a = none → ProtoEqual enc a b = .error .encodeFirst) ∧
    (∀ x, enc a = some x → enc b = none → ProtoEqual enc a b = .error .encodeSecond) ∧
    (∀ x y, enc a = some x → enc b = some y → x.length ≠ y.length →
      ProtoEqual enc a b = .error .lengthsDiffer) ∧
    (∀ x y (i : Nat), enc a = some x → enc b = some y → x.length = y.length →
      x[i]? ≠ y[i]? → ProtoEqual enc a b = .error .bytesDiffer) ∧
    (∀ x, enc a = some x → ProtoEqual enc a a = .ok ()) := by
  refine ⟨ProtoEqual_ok_iff enc a b, ProtoEqual_none_first enc a b,
    ProtoEqual_none_second enc a b, ?_, ?_, ?_⟩
  · intro x y ha hb hlen
    rw [ProtoEqual_some enc a b x y ha hb, if_pos hlen]
  · intro x y i ha hb hlen hi
    have hxy : x ≠ y := fun h => hi (by rw [h])
    have hcmp : 0 ≠ bytesCompare x y :=
      fun h => hxy ((bytesCompare_eq_zero_iff x y).mp h.symm)
    rw [ProtoEqual_some enc a b x y ha hb, if_neg (not_not.mpr hlen), if_pos hcmp]
  · intro x ha
    exact (ProtoEqual_ok_iff enc a a).mpr ⟨x, ha, ha⟩

theorem bind_ok_eq {ε α β : Type} (a : α) (f : α → Except ε β) :
    (Except.ok a >>= f) = f a := rfl

theorem bind_error_eq {ε α β : Type} (e : ε) (f : α → Except ε β) :
    ((Except.error e : Except ε α) >>= f) = Except.error e := rfl

theorem seq_ok_iff {ε : Type} (s : Except ε Unit) (t : Unit → Except ε Unit) :
    (s >>= t) = .ok () ↔ s = .ok () ∧ t () = .ok () := by
  cases s with
  | error e =>
    rw [bind_error_eq]
    constructor
    · intro h; cases h
    · intro h; cases h.1
  | ok u =>
    rw [bind_ok_eq]
    simp

theorem index_natCast {α : Type} (xs : List α) (i : Nat) :
    index xs (i : Int) =
      match xs[i]? with
      | none => .error .indexOutOfRange
      | some x => .ok x := by
  unfold index
  rw [if_neg (by omega), Int.toNat_ofNat]

theorem require_ok_iff (i : Nat) (c : Check) (holds : Bool) :
    require i c holds = .ok () ↔ holds = true := by
  cases holds <;> simp [require]

theorem require_failed (i : Nat) (c : Check) (holds : Bool) (h : holds = false) :
    require i c holds = .error (.failed i c) := by
  subst h
  rfl

theorem nested_ok_iff {M : Type} (i : Nat) (c : Check) (enc : M → Option Bytes) (a b : M) :
    nested i c (ProtoEqual enc a b) = .ok () ↔ ∃ x, enc a = some x ∧ enc b = some x := by
  rw [← ProtoEqual_ok_iff]
  cases ProtoEqual enc a b with
  | error e => simp [nested]
  | ok u => simp [nested]

theorem nested_failed {M : Type} (i : Nat) (c : Check) (enc : M → Option Bytes) (a b : M)
    (h : ¬ ∃ x, enc a = some x ∧ enc b = some x) :
    nested i c (ProtoEqual enc a b) = .error (.failed i c) := by
  rw [← ProtoEqual_ok_iff] at h
  cases hp : ProtoEqual enc a b with
  | error e => rfl
  | ok u => exact absurd hp h

/-- The body of the loop once the two blocks and their headers are at hand. -/
theorem CheckBlocksBody_present (encHeader : BlockHeader → Option Bytes)
    (encBlock : Block → Option Bytes) (initial result : List (Option Block)) (i : Nat)
    (a : Block) (ha : BlockHeader) (b : Block) (hb : BlockHeader)
    (h1 : initial[i]? = some (some a)) (h2 : a.Header = some ha)
    (h3 : result[i]? = some (some b)) (h4 : b.Header = some hb) :
    CheckBlocksBody encHeader encBlock initial result i =
      (require i .name (ha.BlockchainName == hb.BlockchainName) >>= fun _ =>
        require i .height (uint64ToInt ha.BlockHeight == uint64ToInt hb.BlockHeight) >>= fun _ =>
        require i .hash
          (hashString (BytesToHash ha.BlockHash) == hashString (BytesToHash hb.BlockHash))
          >>= fun _ =>
        nested i .header (ProtoEqual encHeader ha hb) >>= fun _ =>
        nested i .block (ProtoEqual encBlock a b)) := by
  unfold CheckBlocksBody
  rw [index_natCast, index_natCast, h1, h3]
  simp only [deref, atIndex, h2, h4, bind_ok_eq]

theorem CheckBlocksBody_ok_present (encHeader : BlockHeader → Option Bytes)
    (encBlock : Block → Option Bytes) (initial result : List (Option Block)) (i : Nat)
    (h : CheckBlocksBody encHeader encBlock initial result i = .ok ()) :
    ∃ a ha b hb, initial[i]? = some (some a) ∧ a.Header = some ha ∧
      result[i]? = some (some b) ∧ b.Header = some hb := by
  unfold CheckBlocksBody at h
  rw [index_natCast, index_natCast] at h
  rcases h1 : initial[i]? with _ | _ | a
  · rw [h1] at h; cases h
  · rw [h1] at h; cases h
  rcases h2 : a.Header with _ | ha
  · rw [h1] at h; simp only [deref, atIndex, h2, bind_ok_eq, bind_error_eq] at h; cases h
  rcases h3 : result[i]? with _ | _ | b
  · rw [h1, h3] at h; simp only [deref, atIndex, h2, bind_ok_eq, bind_error_eq] at h; cases h
  · rw [h1, h3] at h; simp only [deref, atIndex, h2, bind_ok_eq, bind_error_eq] at h; cases h
  rcases h4 : b.Header with _ | hb
  · rw [h1, h3] at h; simp only [deref, atIndex, h2, h4, bind_ok_eq, bind_error_eq] at h; cases h
  exact ⟨a, ha, b, hb, rfl, h2, rfl, h4⟩

theorem CheckBlocksBody_ok_iff (encHeader : BlockHeader → Option Bytes)
    (encBlock : Block → Option Bytes) (initial result : List (Option Block)) (i : Nat) :
    CheckBlocksBody encHeader encBlock initial result i = .ok () ↔
      ChecksHoldAt encHeader encBlock initial result i := by
  constructor
  · intro h
    obtain ⟨a, ha, b, hb, h1, h2, h3, h4⟩ :=
      CheckBlocksBody_ok_present encHeader encBlock initial result i h
    rw [CheckBlocksBody_present encHeader encBlock initial result i a ha b hb h1 h2 h3 h4] at h
    simp only [seq_ok_iff, require_ok_iff, nested_ok_iff, beq_iff_eq] at h
    refine ⟨a, ha, b, hb, h1, h2, h3, h4, ?_⟩
    intro c
    cases c
    · exact h.1
    · exact h.2.1
    · exact h.2.2.1
    · exact h.2.2.2.1
    · exact h.2.2.2.2
  · rintro ⟨a, ha, b, hb, h1, h2, h3, h4, hall⟩
    rw [CheckBlocksBody_present encHeader encBlock initial result i a ha b hb h1 h2 h3 h4]
    simp only [seq_ok_iff, require_ok_iff, nested_ok_iff, beq_iff_eq]
    exact ⟨hall .name, hall .height, hall .hash, hall .header, hall .block⟩

theorem CheckBlocksBody_failed (encHeader : BlockHeader → Option Bytes)
    (encBlock : Block → Option Bytes) (initial result : List (Option Block)) (i : Nat)
    (a : Block) (ha : BlockHeader) (b : Block) (hb : BlockHeader)
    (h1 : initial[i]? = some (some a)) (h2 : a.Header = some ha)
    (h3 : result[i]? = some (some b)) (h4 : b.Header = some hb) (c : Check)
    (hbefore : ∀ c' : Check, c'.rank < c.rank → checkHolds encHeader encBlock a ha b hb c')
    (hc : ¬ checkHolds encHeader encBlock a ha b hb c) :
    CheckBlocksBody encHeader encBlock initial result i = .error (.failed i c) := by
  rw [CheckBlocksBody_present encHeader encBlock initial result i a ha b hb h1 h2 h3 h4]
  have hname : c ≠ .name →
      require i .name (ha.BlockchainName == hb.BlockchainName) = .ok () := fun hne =>
    (require_ok_iff _ _ _).mpr (beq_iff_eq.mpr
      (hbefore .name (by cases c <;> first | exact absurd rfl hne | decide)))
  cases c with
  | name =>
    rw [require_failed i .name _ (by simpa [checkHolds] using hc)]
    rfl
  | height =>
    rw [hname (by decide), bind_ok_eq,
      require_failed i .height _ (by simpa [checkHolds] using hc)]
    rfl
  | hash =>
    rw [hname (by decide), bind_ok_eq,
      (require_ok_iff _ _ _).mpr (beq_iff_eq.mpr (hbefore .height (by decide))), bind_ok_eq,
      require_failed i .hash _ (by simpa [checkHolds] using hc)]
    rfl
  | header =>
    rw [hname (by decide), bind_ok_eq,
      (require_ok_iff _ _ _).mpr (beq_iff_eq.mpr (hbefore .height (by decide))), bind_ok_eq,
      (require_ok_iff _ _ _).mpr (beq_iff_eq.mpr (hbefore .hash (by decide))), bind_ok_eq,
      nested_failed i .header encHeader ha hb hc]
    rfl
  | block =>
    rw [hname (by decide), bind_ok_eq,
      (require_ok_iff _ _ _).mpr (beq_iff_eq.mpr (hbefore .height (by decide))), bind_ok_eq,
      (require_ok_iff _ _ _).mpr (beq_iff_eq.mpr (hbefore .hash (by decide))), bind_ok_eq,
      (nested_ok_iff i .header encHeader ha hb).mpr (hbefore .header (by decide)), bind_ok_eq,
      nested_failed i .block encBlock a b hc]

theorem CheckBlocksLoop_ok_iff (encHeader : BlockHeader → Option Bytes)
    (encBlock : Block → Option Bytes) (initial result : List (Option Block)) :
    ∀ k i, CheckBlocksLoop encHeader encBlock initial result k i = .ok () ↔
      ∀ j, i ≤ j → j < i + k → CheckBlocksBody encHeader encBlock initial result j = .ok () := by
  intro k
  induction k with
  | zero =>
    intro i
    constructor
    · intro _ j h1 h2
      omega
    · intro _
      rfl
  | succ k ih =>
    intro i
    unfold CheckBlocksLoop
    rw [seq_ok_iff, ih (i + 1)]
    constructor
    · rintro ⟨h0, hrest⟩ j h1 h2
      by_cases hj : j = i
      · rw [hj]; exact h0
      · exact hrest j (by omega) (by omega)
    · intro h
      exact ⟨h i (le_refl i) (by omega), fun j h1 h2 => h j (by omega) (by omega)⟩

theorem CheckBlocksLoop_first_error (encHeader : BlockHeader → Option Bytes)
    (encBlock : Block → Option Bytes) (initial result : List (Option Block)) (m : Nat)
    (e : CheckAbort)
    (hm : CheckBlocksBody encHeader encBlock initial result m = .error e) :
    ∀ k i, i ≤ m → m < i + k →
      (∀ j, i ≤ j → j < m → CheckBlocksBody encHeader encBlock initial result j = .ok ()) →
      CheckBlocksLoop encHeader encBlock initial result k i = .error e := by
  intro k
  induction k with
  | zero =>
    intro i h1 h2
    omega
  | succ k ih =>
    intro i h1 h2 hbefore
    unfold CheckBlocksLoop
    by_cases him : i = m
    · rw [him, hm]
      rfl
    · rw [hbefore i (le_refl i) (by omega), bind_ok_eq]
      exact ih (i + 1) (by omega) (by omega) (fun j hj1 hj2 => hbefore j (by omega) hj2)

/-- C8: `CheckBlocks` first requires the two lists to have the same length and on a
mismatch stops the test whatever the elements are; otherwise it goes through the
indices in ascending order and at each makes the five checks in the order name,
height, hash, header encoding, block encoding, and it stops the test at the first
check that does not hold, whatever comes after; it passes exactly when the lengths
are equal and the five checks hold at every index. -/
theorem CheckBlocks_first_failure (encHeader : BlockHeader → Option Bytes)
    (encBlock : Block → Option Bytes) (initial result : List (Option Block)) :
    (initial.length ≠ result.length →
      CheckBlocks encHeader encBlock initial result = .error .lengths) ∧
    (initial.length = result.length →
      ∀ (i : Nat) (a : Block) (ha : BlockHeader) (b : Block) (hb : BlockHeader) (c : Check),
        (∀ j, j < i → ChecksHoldAt encHeader encBlock initial result j) →
        initial[i]? = some (some a) → a.Header = some ha →
        result[i]? = some (some b) → b.Header = some hb →
        (∀ c' : Check, c'.rank < c.rank → checkHolds encHeader encBlock a ha b hb c') →
        ¬ checkHolds encHeader encBlock a ha b hb c →
        CheckBlocks encHeader encBlock initial result = .error (.failed i c)) ∧
    (CheckBlocks encHeader encBlock initial result = .ok () ↔
      initial.length = result.length ∧
        ∀ i, i < initial.length → ChecksHoldAt encHeader encBlock initial result i) := by
  refine ⟨?_, ?_, ?_⟩
  · intro hlen
    unfold CheckBlocks
    rw [if_pos hlen]
  · intro hlen i a ha b hb c hprev h1 h2 h3 h4 hbefore hc
    unfold CheckBlocks
    rw [if_neg (not_not.mpr hlen)]
    have hi : i < initial.length := by
      by_contra hge
      rw [List.getElem?_eq_none (by omega)] at h1
      cases h1
    refine CheckBlocksLoop_first_error encHeader encBlock initial result i _
      (CheckBlocksBody_failed encHeader encBlock initial result i a ha b hb h1 h2 h3 h4 c
        hbefore hc) initial.length 0 (Nat.zero_le i) (by omega) ?_
    intro j _ hj
    exact (CheckBlocksBody_ok_iff encHeader encBlock initial result j).mpr (hprev j hj)
  · unfold CheckBlocks
    by_cases hlen : initial.length = result.length
    · rw [if_neg (not_not.mpr hlen), CheckBlocksLoop_ok_iff]
      constructor
      · intro h
        refine ⟨hlen, fun i hi => ?_⟩
        exact (CheckBlocksBody_ok_iff encHeader encBlock initial result i).mp
          (h i (Nat.zero_le i) (by omega))
      · rintro ⟨_, h⟩ j _ hj
        exact (CheckBlocksBody_ok_iff encHeader encBlock initial result j).mpr (h j (by omega))
    · rw [if_pos hlen]
      constructor
      · intro h; cases h
      · intro h; exact absurd h.1 hlen

/-- The checks of C8 on concrete lists: a length mismatch stops the test although the
only element is nil; a height mismatch at index 0 stops it although the elements at
index 1 are nil; two equal one-block lists pass. -/
theorem CheckBlocks_first_failure_witness :
    CheckBlocks sampleEncHeader sampleEncBlock [none] [] = .error .lengths ∧
    CheckBlocks sampleEncHeader sampleEncBlock [some (sampleBlock 1), none]
      [some (sampleBlock 2), none] = .error (.failed 0 .height) ∧
    CheckBlocks sampleEncHeader sampleEncBlock [some (sampleBlock 1)] [some (sampleBlock 1)]
      = .ok () := by
  refine ⟨?_, ?_, ?_⟩
  · exact (CheckBlocks_first_failure sampleEncHeader sampleEncBlock [none] []).1 (by decide)
  · refine (CheckBlocks_first_failure sampleEncHeader sampleEncBlock
      [some (sampleBlock 1), none] [some (sampleBlock 2), none]).2.1 rfl 0
      (sampleBlock 1) _ (sampleBlock 2) _ .height ?_ rfl rfl rfl rfl ?_ ?_
    · intro j hj
      omega
    · intro c' hc'
      cases c' <;> first | rfl | exact absurd hc' (by decide)
    · show ¬ (uint64ToInt 1 = uint64ToInt 2)
      decide
  · refine (CheckBlocks_first_failure sampleEncHeader sampleEncBlock
      [some (sampleBlock 1)] [some (sampleBlock 1)]).2.2.mpr ⟨rfl, ?_⟩
    intro i hi
    have hi0 : i = 0 := by simpa using hi
    subst hi0
    refine ⟨sampleBlock 1, _, sampleBlock 1, _, rfl, rfl, rfl, rfl, ?_⟩
    intro c
    cases c
    · rfl
    · rfl
    · rfl
    · exact ⟨_, rfl, rfl⟩
    · exact ⟨_, rfl, rfl⟩

/-! ## Failure of generation -/

theorem GetSequenceParent_last (blocks : List (Option Block)) (last : Block)
    (hd : BlockHeader) (hlast : blocks.getLast? = some (some last))
    (hhd : last.Header = some hd) : GetSequenceParent blocks = .ok hd.BlockHash := by
  have hne : blocks ≠ [] := by
    intro h
    rw [h] at hlast
    cases hlast
  have hpos : 0 < blocks.length := List.length_pos.mpr hne
  have hidx : ((blocks.length : Int) - 1) = ((blocks.length - 1 : Nat) : Int) := by omega
  unfold GetSequenceParent
  rw [hidx, index_natCast, ← List.getLast?_eq_getElem?, hlast]
  simp only [deref, hhd, bind_ok_eq]
  rfl

theorem GetSequenceParent_error (blocks : List (Option Block))
    (h : ¬ ∃ last hd, blocks.getLast? = some (some last) ∧ last.Header = some hd) :
    ∃ p, GetSequenceParent blocks = .error p := by
  cases hrun : GetSequenceParent blocks with
  | error p => exact ⟨p, rfl⟩
  | ok out =>
    exfalso
    apply h
    unfold GetSequenceParent at hrun
    by_cases hlen : blocks.length = 0
    · have hneg : ((blocks.length : Int) - 1) < 0 := by omega
      unfold index at hrun
      rw [if_pos hneg] at hrun
      cases hrun
    · have hidx : ((blocks.length : Int) - 1) = ((blocks.length - 1 : Nat) : Int) := by omega
      rw [hidx, index_natCast, ← List.getLast?_eq_getElem?] at hrun
      rcases hl : blocks.getLast? with _ | _ | last
      · rw [hl] at hrun; cases hrun
      · rw [hl] at hrun; cases hrun
      · rcases hh : last.Header with _ | hd
        · rw [hl] at hrun
          simp only [deref, hh, bind_ok_eq, bind_error_eq] at hrun
          cases hrun
        · exact ⟨last, hd, rfl, hh⟩

/-- C6, the runs that refute it: a size that is negative or above the limit of `make`
makes `GenBytes`, `GenLog`, `GenTxWithLogs`, `GenTx` and `GenBlockWithLargeTxs` panic,
`GetSequenceParent` panics on the empty sequence, and `GenLogsBloom` and `GenBlock`
panic on a transaction list holding a nil pointer or a transaction of another chain. -/
theorem generation_panics :
    GenBytes (-1) sampleRand = .error .makesliceLenOutOfRange ∧
    GenBytes (2 ^ 62) sampleRand = .error .makesliceLenOutOfRange ∧
    GenLog 0 (-1) sampleRand = .error .makesliceLenOutOfRange ∧
    GenTxWithLogs "ABCchain" 100 [8] [9] 0 (-1) [] sampleRand
      = .error .makesliceLenOutOfRange ∧
    GenTx "ABCchain" 100 [8] [9] 0 500 1 (-1) sampleRand
      = .error .makesliceLenOutOfRange ∧
    GenBlockWithLargeTxs sampleAdd "ABCchain" 100 [8] 1 (-1) sampleRand
      = .error .makesliceLenOutOfRange ∧
    GetSequenceParent [] = .error .indexOutOfRange ∧
    GenLogsBloom sampleAdd [none] = .error .nilDereference ∧
    GenLogsBloom sampleAdd [some sampleOtherTx] = .error .interfaceConversion ∧
    GenBlock sampleAdd "ABCchain" 100 [8] [7] [some sampleOtherTx] sampleRand
      = .error .interfaceConversion :=
  ⟨GenBytes_panics (-1) (Or.inl (by decide)) sampleRand,
    GenBytes_panics (2 ^ 62) (Or.inr (by decide)) sampleRand,
    GenLog_panics 0 (-1) (Or.inl (by decide)) sampleRand,
    GenTxWithLogs_panics "ABCchain" 100 [8] [9] 0 (-1) [] (Or.inl (by decide)) sampleRand,
    GenTx_panics "ABCchain" 100 [8] [9] 0 500 1 (-1) (by decide) sampleRand,
    GenBlockWithLargeTxs_panics sampleAdd "ABCchain" 100 [8] 1 (-1) (by decide) sampleRand,
    rfl, rfl, rfl,
    GenBlock_panics sampleAdd "ABCchain" 100 [8] [7] [some sampleOtherTx]
      .interfaceConversion rfl sampleRand⟩

/-- C6 as amended: each generator operation returns a value on exactly these inputs,
and panics on every other input. `GenBytes`, `GenLog` and `GenTxWithLogs`: the size
is at least 0 and at most the limit of `make`. `GenTx`: the input size is in that
range, and the size of the log data is in that range or `logsCount ≤ 0`.
`GenBlockWithLargeTxs`: the input size is in that range or `txsCount ≤ 0`. `GenBlock`
and `GenLogsBloom`: every transaction is a non-nil Ethereum transaction whose logs are
non-nil. `GetSequenceParent`: the sequence ends in a non-nil block with a header.
`GenBlockWithTxs` and `GenSequence`: every input. A count that is not positive gives
an empty list. -/
theorem generation_returns (add : Bloom → Bytes → Bloom) (name : String) (height : Nat)
    (hash parent txHash : Bytes) (idx logIndex : Nat)
    (size dataSize inputSize logsDataSize logsCount txsCount blocksCount : Int)
    (logs : List (Option EthLog)) (transactions : List (Option Transaction))
    (blocks : List (Option Block)) (r : Rand) :
    ((0 ≤ size ∧ size ≤ maxAlloc →
        ∃ b r', GenBytes size r = .ok (b, r') ∧ (b.length : Int) = size) ∧
      (¬ (0 ≤ size ∧ size ≤ maxAlloc) →
        GenBytes size r = .error .makesliceLenOutOfRange)) ∧
    ((0 ≤ dataSize ∧ dataSize ≤ maxAlloc →
        ∃ l r', GenLog logIndex dataSize r = .ok (some l, r')) ∧
      (¬ (0 ≤ dataSize ∧ dataSize ≤ maxAlloc) →
        GenLog logIndex dataSize r = .error .makesliceLenOutOfRange)) ∧
    (((0 ≤ inputSize ∧ inputSize ≤ maxAlloc) ∧
          ((0 ≤ logsDataSize ∧ logsDataSize ≤ maxAlloc) ∨ logsCount ≤ 0) →
        ∃ t e r', GenTx name height hash txHash idx inputSize logsCount logsDataSize r
            = .ok (some t, r') ∧ t.Specific = some (.EthTx (some e)) ∧
          (logsCount ≤ 0 → e.Logs = [])) ∧
      (¬ ((0 ≤ inputSize ∧ inputSize ≤ maxAlloc) ∧
          ((0 ≤ logsDataSize ∧ logsDataSize ≤ maxAlloc) ∨ logsCount ≤ 0)) →
        GenTx name height hash txHash idx inputSize logsCount logsDataSize r
          = .error .makesliceLenOutOfRange)) ∧
    ((0 ≤ inputSize ∧ inputSize ≤ maxAlloc →
        ∃ t r', GenTxWithLogs name height hash txHash idx inputSize logs r
          = .ok (some t, r')) ∧
      (¬ (0 ≤ inputSize ∧ inputSize ≤ maxAlloc) →
        GenTxWithLogs name height hash txHash idx inputSize logs r
          = .error .makesliceLenOutOfRange)) ∧
    (((∀ t ∈ transactions, isEthereumTx t = true) →
        ∃ b r', GenBlock add name height hash parent transactions r = .ok (some b, r')) ∧
      (¬ (∀ t ∈ transactions, isEthereumTx t = true) →
        ∃ p, GenBlock add name height hash parent transactions r = .error p)) ∧
    (∃ b r', GenBlockWithTxs add name height hash parent txsCount r = .ok (some b, r') ∧
      (txsCount ≤ 0 → b.Transactions = [])) ∧
    (((0 ≤ inputSize ∧ inputSize ≤ maxAlloc) ∨ txsCount ≤ 0 →
        ∃ b r', GenBlockWithLargeTxs add name height hash txsCount inputSize r
          = .ok (some b, r') ∧ (txsCount ≤ 0 → b.Transactions = [])) ∧
      (¬ ((0 ≤ inputSize ∧ inputSize ≤ maxAlloc) ∨ txsCount ≤ 0) →
        GenBlockWithLargeTxs add name height hash txsCount inputSize r
          = .error .makesliceLenOutOfRange)) ∧
    (((∀ t ∈ transactions, isEthereumTx t = true) →
        ∃ bloom, GenLogsBloom add transactions = .ok bloom) ∧
      (¬ (∀ t ∈ transactions, isEthereumTx t = true) →
        ∃ p, GenLogsBloom add transactions = .error p)) ∧
    (∃ bs r', GenSequence add blocksCount name height hash parent txsCount r = .ok (bs, r') ∧
      (blocksCount ≤ 0 → bs = [])) ∧
    ((∀ last hd, blocks.getLast? = some (some last) → last.Header = some hd →
        GetSequenceParent blocks = .ok hd.BlockHash) ∧
      ((¬ ∃ last hd, blocks.getLast? = some (some last) ∧ last.Header = some hd) →
        ∃ p, GetSequenceParent blocks = .error p)) := by
  refine ⟨⟨?_, ?_⟩, ⟨?_, ?_⟩, ⟨?_, ?_⟩, ⟨?_, ?_⟩, ⟨?_, ?_⟩, ?_, ⟨?_, ?_⟩, ⟨?_, ?_⟩, ?_,
    ⟨?_, ?_⟩⟩
  · intro hsize
    obtain ⟨b, r', hrun, hb⟩ := GenBytes_returns size hsize.1 hsize.2 r
    exact ⟨b, r', hrun, by omega⟩
  · intro hsize
    exact GenBytes_panics size (by omega) r
  · intro hdata
    obtain ⟨l, r', hrun, log, rfl, _⟩ := GenLog_returns logIndex dataSize hdata.1 hdata.2 r
    exact ⟨log, r', hrun⟩
  · intro hdata
    exact GenLog_panics logIndex dataSize (by omega) r
  · intro hok
    obtain ⟨t, r', hrun, tx, e, rfl, _, _, _, _, hs, _, _, hlen, _⟩ :=
      GenTx_returns name height hash txHash idx inputSize logsCount logsDataSize hok.1 hok.2 r
    refine ⟨tx, e, r', hrun, hs, ?_⟩
    intro hneg
    exact List.length_eq_zero.mp (by omega)
  · intro hbad
    exact GenTx_panics name height hash txHash idx inputSize logsCount logsDataSize hbad r
  · intro hinput
    obtain ⟨t, r', hrun, tx, e, rfl, _⟩ :=
      GenTxWithLogs_returns name height hash txHash idx inputSize logs hinput r
    exact ⟨tx, r', hrun⟩
  · intro hinput
    exact GenTxWithLogs_panics name height hash txHash idx inputSize logs (by omega) r
  · intro heth
    obtain ⟨b, r', hrun, blk, _, _, rfl, _⟩ :=
      GenBlock_returns add name height hash parent transactions heth r
    exact ⟨blk, r', hrun⟩
  · intro heth
    obtain ⟨p, hp⟩ := GenLogsBloom_error add transactions heth
    exact ⟨p, GenBlock_panics add name height hash parent transactions p hp r⟩
  · obtain ⟨b, r', hrun, txs, ⟨blk, _, _, rfl, _, htx, _⟩, hlen, _⟩ :=
      GenBlockWithTxs_returns add name height hash parent txsCount r
    refine ⟨blk, r', hrun, ?_⟩
    intro hneg
    rw [htx]
    exact List.length_eq_zero.mp (by omega)
  · intro hok
    obtain ⟨b, r', hrun, txs, p, ⟨blk, _, _, rfl, _, htx, _⟩, hlen⟩ :=
      GenBlockWithLargeTxs_returns add name height hash txsCount inputSize hok r
    refine ⟨blk, r', hrun, ?_⟩
    intro hneg
    rw [htx]
    exact List.length_eq_zero.mp (by omega)
  · intro hbad
    exact GenBlockWithLargeTxs_panics add name height hash txsCount inputSize hbad r
  · intro heth
    exact ⟨_, GenLogsBloom_eq add transactions heth⟩
  · intro heth
    exact GenLogsBloom_error add transactions heth
  · obtain ⟨bs, r', hrun, g, hshape⟩ :=
      GenSequence_returns add blocksCount name height hash parent txsCount r
    have hlen : bs.length = blocksCount.toNat := hshape.2.2.1
    refine ⟨bs, r', hrun, ?_⟩
    intro hneg
    exact List.length_eq_zero.mp (by omega)
  · intro last hd hlast hhd
    exact GetSequenceParent_last blocks last hd hlast hhd
  · intro hnone
    exact GetSequenceParent_error blocks hnone

/-- The generators run on sample inputs: sizes zero and positive, counts that are not
positive together with sizes that `make` rejects, one sample Ethereum transaction, a
sequence of two blocks. -/
theorem generation_returns_witness :
    (∃ b r', GenBytes 0 sampleRand = .ok (b, r') ∧ (b.length : Int) = 0) ∧
    (∃ l r', GenLog 5 40 sampleRand = .ok (some l, r')) ∧
    (∃ t e r', GenTx "ABCchain" 100 [8] [9] 0 500 (-1) (-40) sampleRand = .ok (some t, r') ∧
      t.Specific = some (.EthTx (some e)) ∧ ((-1 : Int) ≤ 0 → e.Logs = [])) ∧
    (∃ t r', GenTxWithLogs "ABCchain" 100 [8] [9] 0 500 [some sampleLog] sampleRand
      = .ok (some t, r')) ∧
    (∃ b r', GenBlock sampleAdd "ABCchain" 100 [8] [7] [some sampleTx] sampleRand
      = .ok (some b, r')) ∧
    (∃ b r', GenBlockWithTxs sampleAdd "ABCchain" 100 [8] [7] (-3) sampleRand
        = .ok (some b, r') ∧ ((-3 : Int) ≤ 0 → b.Transactions = [])) ∧
    (∃ b r', GenBlockWithLargeTxs sampleAdd "ABCchain" 100 [8] 0 (-1) sampleRand
        = .ok (some b, r') ∧ ((0 : Int) ≤ 0 → b.Transactions = [])) ∧
    (∃ bloom, GenLogsBloom sampleAdd [some sampleTx] = .ok bloom) ∧
    (∃ bs r', GenSequence sampleAdd (-2) "ABCchain" 100 [8] [7] 0 sampleRand
        = .ok (bs, r') ∧ ((-2 : Int) ≤ 0 → bs = [])) ∧
    GetSequenceParent [some (sampleBlock 1), some (sampleBlock 2)] = .ok [8] := by
  have run := generation_returns sampleAdd "ABCchain" 100 [8] [7] [9] 0 5 0 40 500 (-40)
    (-1) (-3) (-2) [some sampleLog] [some sampleTx]
    [some (sampleBlock 1), some (sampleBlock 2)] sampleRand
  have large := generation_returns sampleAdd "ABCchain" 100 [8] [7] [9] 0 5 0 40 (-1) (-40)
    (-1) 0 (-2) [some sampleLog] [some sampleTx]
    [some (sampleBlock 1), some (sampleBlock 2)] sampleRand
  have seq := generation_returns sampleAdd "ABCchain" 100 [8] [7] [9] 0 5 0 40 500 (-40)
    (-1) 0 (-2) [some sampleLog] [some sampleTx]
    [some (sampleBlock 1), some (sampleBlock 2)] sampleRand
  exact ⟨run.1.1 (by decide), run.2.1.1 (by decide), run.2.2.1.1 (by decide),
    run.2.2.2.1.1 (by decide), run.2.2.2.2.1.1 (by decide), run.2.2.2.2.2.1,
    large.2.2.2.2.2.2.1.1 (by decide), run.2.2.2.2.2.2.2.1.1 (by decide),
    seq.2.2.2.2.2.2.2.2.1, run.2.2.2.2.2.2.2.2.2.1 (sampleBlock 2) _ rfl rfl⟩

end Testentity
